import Mathlib

/-!
# go-lexer: a shallow embedding of `lexer.go`

The lexer of `lexer.go` reads runes from a `bufio.Reader`, tracks a line/column
position and returns one token per call of `Lex`.  The embedding below follows the
source function by function:

* the `bufio.Reader` is a list of pending read results (`Item`) together with the
  rune that `UnreadRune` may still restore (`last`, the reader's `lastRuneSize >= 0`);
  the list holds what the source delivers until it next reports `io.EOF`, and
  `Lexer.feed` adds what a source delivers after that, since `bufio` keeps no
  end-of-input state;
* a `panic` of the source is the error side of `Except Abort`;
* the three `for` loops carry a fuel argument, initialised by the length of the
  pending input plus one, and `Abort.outOfFuel` marks an exhausted fuel;
* Go's `int` is `Int`; the lexer never tests a counter, and the theorems on the values
  of the counters are stated for inputs shorter than `MaxInt32` runes and show that the
  counters then stay in the range of `int` on every build, where Go's wrapping addition
  and the addition of `Int` agree.
-/

namespace GoLexer

/-! ## Character classification (`unicode` package) -/

/-- Range tables of Go's `unicode` package above Latin-1 (`unicode.White_Space`,
`unicode.Digit`, `unicode.Letter`).  They belong to the standard library, not to the
repository, and are taken as a parameter; each field answers whether a code point above
`U+00FF` is in the table. -/
structure UnicodeTables where
  White_Space : Char → Bool
  Digit : Char → Bool
  Letter : Char → Bool

/-- Tables with no entry above Latin-1, for evaluating the lexer on Latin-1 input,
where the tables are never consulted. -/
def UnicodeTables.latin1 : UnicodeTables :=
  ⟨fun _ => false, fun _ => false, fun _ => false⟩

/-- The tables keep the three classes apart, as the Unicode ones do (`White_Space` lies
in the categories Z and Cc, `Digit` is Nd, `Letter` is L). -/
def UnicodeTables.Separated (T : UnicodeTables) : Prop :=
  ∀ c : Char, (T.White_Space c = true → T.Digit c = false ∧ T.Letter c = false) ∧
    (T.Digit c = true → T.Letter c = false)

namespace unicode

/-- Go `unicode.MaxLatin1`. -/
def MaxLatin1 : Nat := 0xFF

/-- Go `unicode.IsSpace`: in Latin-1 the characters tab, newline, vertical tab, form feed,
carriage return, space, `U+0085` and `U+00A0`; above Latin-1 the `White_Space` table. -/
def IsSpace (T : UnicodeTables) (r : Char) : Bool :=
  if r.toNat ≤ MaxLatin1 then
    r.toNat = 0x09 || r.toNat = 0x0A || r.toNat = 0x0B || r.toNat = 0x0C ||
    r.toNat = 0x0D || r.toNat = 0x20 || r.toNat = 0x85 || r.toNat = 0xA0
  else T.White_Space r

/-- Go `unicode.IsDigit`: in Latin-1 the characters `0` to `9`; above Latin-1 the `Digit`
table. -/
def IsDigit (T : UnicodeTables) (r : Char) : Bool :=
  if r.toNat ≤ MaxLatin1 then 0x30 ≤ r.toNat && r.toNat ≤ 0x39
  else T.Digit r

/-- Go `unicode.IsLetter`: in Latin-1 the letters `A`-`Z`, `a`-`z`, `U+00AA`, `U+00B5`,
`U+00BA`, `U+00C0`-`U+00D6`, `U+00D8`-`U+00F6`, `U+00F8`-`U+00FF`; above Latin-1 the
`Letter` table. -/
def IsLetter (T : UnicodeTables) (r : Char) : Bool :=
  if r.toNat ≤ MaxLatin1 then
    (0x41 ≤ r.toNat && r.toNat ≤ 0x5A) || (0x61 ≤ r.toNat && r.toNat ≤ 0x7A) ||
    r.toNat = 0xAA || r.toNat = 0xB5 || r.toNat = 0xBA ||
    (0xC0 ≤ r.toNat && r.toNat ≤ 0xD6) || (0xD8 ≤ r.toNat && r.toNat ≤ 0xF6) ||
    (0xF8 ≤ r.toNat && r.toNat ≤ 0xFF)
  else T.Letter r

end unicode

/-! ## Data model -/

/-- Go `type Token int` with the constants `EOF = iota`, `ILLEGAL`, ... -/
inductive Token where
  | EOF | ILLEGAL | IDENT | INT | SEMI | ADD | SUB | MUL | DIV | ASSIGN
  deriving DecidableEq, Repr

/-- Go `type Position struct { line int; column int }`.  The fields are mathematical
integers: they are the values of the Go counters as long as these stay in the range of
`int`, whose addition wraps (see `MaxInt32`). -/
structure Position where
  line : Int
  column : Int
  deriving DecidableEq, Repr

/-- Go `math.MaxInt32`: the largest value of `int` on a build where `int` has 32 bits,
the narrowest there is (elsewhere the largest value is `math.MaxInt64`). -/
def MaxInt32 : Int := 2147483647

/-- The errors the lexer sees: `io.EOF`, any other error of the underlying source, and
`bufio.ErrInvalidUnreadRune`. -/
inductive Error where
  | EOF | fault | ErrInvalidUnreadRune
  deriving DecidableEq, Repr

/-- One pending result of the underlying source: a decoded rune, or a read error other
than `io.EOF`.  At the end of the list the source reports `io.EOF`, and goes on doing so
until it delivers more (see `Lexer.feed`). -/
inductive Item where
  | rune (r : Char)
  | fault
  deriving DecidableEq, Repr

/-- The state of the `bufio.Reader` as far as `ReadRune` and `UnreadRune` see it: what is
still to be read, and the last rune read when `lastRuneSize >= 0`. -/
structure Reader where
  src : List Item
  last : Option Char
  deriving DecidableEq, Repr

/-- Go `type Lexer struct { pos Position; reader *bufio.Reader }`. -/
structure Lexer where
  pos : Position
  reader : Reader
  deriving DecidableEq, Repr

/-- How a call ends without a result: a Go `panic(err)`, or the fuel of a loop of the
embedding ran out. -/
inductive Abort where
  | panic (err : Error)
  | outOfFuel
  deriving DecidableEq, Repr

/-- The three values `Lex` returns: `(Position, Token, string)`. -/
structure Lexeme where
  pos : Position
  tok : Token
  lit : String
  deriving DecidableEq, Repr

/-- The pending input made of the runes of `cs`, with no read error. -/
def runes (cs : List Char) : List Item := cs.map Item.rune

/-! ## Operations -/

/-- Go `bufio.Reader.ReadRune`: returns the rune and the error (rune `0` on error) and
the new reader state; `lastRuneSize` is set on success and invalidated on error.  An
`io.EOF` is not kept: the next call asks the source again, and finds the list empty again
unless the source has delivered more in between (see `Lexer.feed`). -/
def Reader.ReadRune (b : Reader) : Char × Option Error × Reader :=
  match b.src with
  | [] => (Char.ofNat 0, some Error.EOF, { src := [], last := none })
  | Item.fault :: rest => (Char.ofNat 0, some Error.fault, { src := rest, last := none })
  | Item.rune r :: rest => (r, none, { src := rest, last := some r })

/-- Go `bufio.Reader.UnreadRune`: fails with `ErrInvalidUnreadRune` unless the last
operation was a successful `ReadRune`; otherwise the rune is pending again. -/
def Reader.UnreadRune (b : Reader) : Option Error × Reader :=
  match b.last with
  | none => (some Error.ErrInvalidUnreadRune, b)
  | some r => (none, { src := Item.rune r :: b.src, last := none })

/-- Go `NewLexer`. -/
def NewLexer (r : List Item) : Lexer :=
  { pos := { line := 1, column := 0 }, reader := { src := r, last := none } }

/-- The underlying source delivers `more` after what it has delivered so far.  `Lex`
and `bufio` keep no end-of-input state (`bufio` hands an `io.EOF` of the source over once
and reads the source again at the next `ReadRune`), so what a source delivers after it
has reported end of input, as a terminal, a pipe or a growing file may, is read by the
next call. -/
def Lexer.feed (l : Lexer) (more : List Item) : Lexer :=
  { l with reader := { l.reader with src := l.reader.src ++ more } }

/-- Go `(*Lexer).resetPosition`. -/
def Lexer.resetPosition (l : Lexer) : Lexer :=
  { l with pos := { line := l.pos.line + 1, column := 0 } }

/-- Go `(*Lexer).backup`. -/
def Lexer.backup (l : Lexer) : Except Abort Lexer :=
  match l.reader.UnreadRune with
  | (some err, _) => Except.error (Abort.panic err)
  | (none, rd) => Except.ok { pos := { l.pos with column := l.pos.column - 1 }, reader := rd }

/-- The `for` loop of Go `(*Lexer).lexInt`. -/
def Lexer.lexIntLoop (T : UnicodeTables) : Nat → String → Lexer → Except Abort (String × Lexer)
  | 0, _, _ => Except.error Abort.outOfFuel
  | n + 1, lit, l =>
    match l.reader.ReadRune with
    | (r, err, rd) =>
      if err = some Error.EOF then Except.ok (lit, { l with reader := rd })
      else
        let l1 : Lexer := { pos := { l.pos with column := l.pos.column + 1 }, reader := rd }
        if unicode.IsDigit T r then Lexer.lexIntLoop T n (lit ++ String.singleton r) l1
        else
          match l1.backup with
          | Except.error e => Except.error e
          | Except.ok l2 => Except.ok (lit, l2)

/-- Go `(*Lexer).lexInt`. -/
def Lexer.lexInt (T : UnicodeTables) (l : Lexer) : Except Abort (String × Lexer) :=
  Lexer.lexIntLoop T (l.reader.src.length + 1) "" l

/-- The `for` loop of Go `(*Lexer).lexIdent`. -/
def Lexer.lexIdentLoop (T : UnicodeTables) : Nat → String → Lexer → Except Abort (String × Lexer)
  | 0, _, _ => Except.error Abort.outOfFuel
  | n + 1, lit, l =>
    match l.reader.ReadRune with
    | (r, err, rd) =>
      if err = some Error.EOF then Except.ok (lit, { l with reader := rd })
      else
        let l1 : Lexer := { pos := { l.pos with column := l.pos.column + 1 }, reader := rd }
        if unicode.IsLetter T r then Lexer.lexIdentLoop T n (lit ++ String.singleton r) l1
        else
          match l1.backup with
          | Except.error e => Except.error e
          | Except.ok l2 => Except.ok (lit, l2)

/-- Go `(*Lexer).lexIdent`. -/
def Lexer.lexIdent (T : UnicodeTables) (l : Lexer) : Except Abort (String × Lexer) :=
  Lexer.lexIdentLoop T (l.reader.src.length + 1) "" l

/-- The `for` loop of Go `(*Lexer).Lex`. -/
def Lexer.LexLoop (T : UnicodeTables) : Nat → Lexer → Except Abort (Lexeme × Lexer)
  | 0, _ => Except.error Abort.outOfFuel
  | n + 1, l =>
    match l.reader.ReadRune with
    | (r, err, rd) =>
      if err = some Error.EOF then
        Except.ok ({ pos := l.pos, tok := Token.EOF, lit := "" }, { l with reader := rd })
      else if let some e := err then Except.error (Abort.panic e)
      else
        let l1 : Lexer := { pos := { l.pos with column := l.pos.column + 1 }, reader := rd }
        if r = '\n' then Lexer.LexLoop T n l1.resetPosition
        else if r = ';' then Except.ok ({ pos := l1.pos, tok := Token.SEMI, lit := ";" }, l1)
        else if r = '+' then Except.ok ({ pos := l1.pos, tok := Token.ADD, lit := "+" }, l1)
        else if r = '-' then Except.ok ({ pos := l1.pos, tok := Token.SUB, lit := "-" }, l1)
        else if r = '*' then Except.ok ({ pos := l1.pos, tok := Token.MUL, lit := "*" }, l1)
        else if r = '/' then Except.ok ({ pos := l1.pos, tok := Token.DIV, lit := "/" }, l1)
        else if r = '=' then Except.ok ({ pos := l1.pos, tok := Token.ASSIGN, lit := "=" }, l1)
        else if unicode.IsSpace T r then Lexer.LexLoop T n l1
        else if unicode.IsDigit T r then
          let startPos := l1.pos
          match l1.backup with
          | Except.error e => Except.error e
          | Except.ok l2 =>
            match l2.lexInt T with
            | Except.error e => Except.error e
            | Except.ok (lit, l3) => Except.ok ({ pos := startPos, tok := Token.INT, lit := lit }, l3)
        else if unicode.IsLetter T r then
          let startPos := l1.pos
          match l1.backup with
          | Except.error e => Except.error e
          | Except.ok l2 =>
            match l2.lexIdent T with
            | Except.error e => Except.error e
            | Except.ok (lit, l3) =>
              Except.ok ({ pos := startPos, tok := Token.IDENT, lit := lit }, l3)
        else Except.ok ({ pos := l1.pos, tok := Token.ILLEGAL, lit := String.singleton r }, l1)

/-- Go `(*Lexer).Lex`: the next token and the lexer state after the call. -/
def Lexer.Lex (T : UnicodeTables) (l : Lexer) : Except Abort (Lexeme × Lexer) :=
  Lexer.LexLoop T (l.reader.src.length + 1) l

/-! ## Callers: repeated `Lex` calls -/

/-- The lexer state after `k` successive calls of `Lex`. -/
def Lexer.after (T : UnicodeTables) : Nat → Lexer → Except Abort Lexer
  | 0, l => Except.ok l
  | k + 1, l =>
    match l.Lex T with
    | Except.error e => Except.error e
    | Except.ok (_, l1) => Lexer.after T k l1

/-- The tokens of at most `n` successive calls of `Lex`, stopping at the first `EOF`
(which is the last token of the list). -/
def Lexer.scan (T : UnicodeTables) : Nat → Lexer → Except Abort (List Lexeme)
  | 0, _ => Except.error Abort.outOfFuel
  | n + 1, l =>
    match l.Lex T with
    | Except.error e => Except.error e
    | Except.ok (t, l1) =>
      if t.tok = Token.EOF then Except.ok [t]
      else
        match Lexer.scan T n l1 with
        | Except.error e => Except.error e
        | Except.ok ts => Except.ok (t :: ts)

/-- The tokens of repeated `Lex` calls up to and including the first `EOF`. -/
def Lexer.lexAll (T : UnicodeTables) (l : Lexer) : Except Abort (List Lexeme) :=
  Lexer.scan T (l.reader.src.length + 1) l

/-- The kind and text of each token of a list. -/
def kinds (ts : List Lexeme) : List (Token × String) := ts.map fun t => (t.tok, t.lit)

/-- Common shape of the loops of `lexInt` and `lexIdent`: the continuation loop for a
class `p` of runes (the two loops are instances of it, see `lexIntLoop_eq` and
`lexIdentLoop_eq`). -/
def classLoop (p : Char → Bool) : Nat → String → Lexer → Except Abort (String × Lexer)
  | 0, _, _ => Except.error Abort.outOfFuel
  | n + 1, lit, l =>
    match l.reader.ReadRune with
    | (r, err, rd) =>
      if err = some Error.EOF then Except.ok (lit, { l with reader := rd })
      else
        let l1 : Lexer := { pos := { l.pos with column := l.pos.column + 1 }, reader := rd }
        if p r then classLoop p n (lit ++ String.singleton r) l1
        else
          match l1.backup with
          | Except.error e => Except.error e
          | Except.ok l2 => Except.ok (lit, l2)

/-- The position after consuming the runes `cs` from position `p`: a newline starts a new
line at column 0, any other rune advances the column. -/
def advance (p : Position) : List Char → Position
  | [] => p
  | c :: cs =>
    if c = '\n' then advance { line := p.line + 1, column := 0 } cs
    else advance { p with column := p.column + 1 } cs

/-- The number of runes of `cs` after its last newline (all of `cs` when it has none). -/
def lineTail (cs : List Char) : Nat := (cs.reverse.takeWhile fun c => c != '\n').length

/-- The six operator characters of the `switch` in `Lex`. -/
def isOp (c : Char) : Bool :=
  c = ';' || c = '+' || c = '-' || c = '*' || c = '/' || c = '='

/-- The token kind the `switch` in `Lex` returns for an operator character. -/
def opToken (c : Char) : Token :=
  if c = ';' then Token.SEMI
  else if c = '+' then Token.ADD
  else if c = '-' then Token.SUB
  else if c = '*' then Token.MUL
  else if c = '/' then Token.DIV
  else Token.ASSIGN

/-- What a token returned by `Lex` looks like, kind by kind, together with the reader it
leaves behind: `EOF` has an empty text and an exhausted reader; `ILLEGAL` holds the one
rune that fell through every test; `INT` and `IDENT` hold a non-empty run of the class
that stops before a rune outside the class or at the end of input; the remaining kinds
hold their operator character. -/
def Shape (T : UnicodeTables) (t : Lexeme) (l1 : Lexer) : Prop :=
  match t.tok with
  | Token.EOF => t.lit = "" ∧ l1.reader = ⟨[], none⟩
  | Token.ILLEGAL =>
    ∃ c, t.lit = String.singleton c ∧ l1.reader.last = some c ∧ c ≠ '\n' ∧ isOp c = false ∧
      unicode.IsSpace T c = false ∧ unicode.IsDigit T c = false ∧
      unicode.IsLetter T c = false
  | Token.INT =>
    t.lit.data ≠ [] ∧ (∀ c ∈ t.lit.data, unicode.IsDigit T c = true) ∧
      (∀ c ∈ t.lit.data.head?, unicode.IsSpace T c = false) ∧ l1.reader.last = none ∧
      (∀ i ∈ l1.reader.src.head?, ∃ c, i = Item.rune c ∧ unicode.IsDigit T c = false)
  | Token.IDENT =>
    t.lit.data ≠ [] ∧ (∀ c ∈ t.lit.data, unicode.IsLetter T c = true) ∧
      (∀ c ∈ t.lit.data.head?, unicode.IsSpace T c = false ∧ unicode.IsDigit T c = false) ∧
      l1.reader.last = none ∧
      (∀ i ∈ l1.reader.src.head?, ∃ c, i = Item.rune c ∧ unicode.IsLetter T c = false)
  | tok => ∃ c, isOp c = true ∧ tok = opToken c ∧ t.lit = String.singleton c ∧
      l1.reader.last = some c

/-- The characters that produce no token: whitespace of the classifier and the newline. -/
def isBlank (T : UnicodeTables) (c : Char) : Bool :=
  unicode.IsSpace T c || c = '\n'

/-! ## Instrumented calls: which runes `backup` un-consumes -/

/-- The function of the source that calls `backup`. -/
inductive Site where
  | Lex | lexInt | lexIdent
  deriving DecidableEq, Repr

/-- The continuation loop of `lexInt` and `lexIdent` (see `classLoop`) with a record of
its `backup`: when the `backup` of the rune `r` just read succeeds, `(site, r)` is
recorded, `r` being the rune that `UnreadRune` makes pending again. -/
def classLoopLog (p : Char → Bool) (site : Site) :
    Nat → String → Lexer → Except Abort ((String × Lexer) × List (Site × Char))
  | 0, _, _ => Except.error Abort.outOfFuel
  | n + 1, lit, l =>
    match l.reader.ReadRune with
    | (r, err, rd) =>
      if err = some Error.EOF then Except.ok ((lit, { l with reader := rd }), [])
      else
        let l1 : Lexer := { pos := { l.pos with column := l.pos.column + 1 }, reader := rd }
        if p r then classLoopLog p site n (lit ++ String.singleton r) l1
        else
          match l1.backup with
          | Except.error e => Except.error e
          | Except.ok l2 => Except.ok ((lit, l2), [(site, r)])

/-- The loop of `Lex` (see `Lexer.LexLoop`) with a record of every successful `backup` of
the call, in order: the one of `Lex` itself and the one of `lexInt` or `lexIdent`. -/
def Lexer.LexLoopLog (T : UnicodeTables) :
    Nat → Lexer → Except Abort ((Lexeme × Lexer) × List (Site × Char))
  | 0, _ => Except.error Abort.outOfFuel
  | n + 1, l =>
    match l.reader.ReadRune with
    | (r, err, rd) =>
      if err = some Error.EOF then
        Except.ok (({ pos := l.pos, tok := Token.EOF, lit := "" }, { l with reader := rd }), [])
      else if let some e := err then Except.error (Abort.panic e)
      else
        let l1 : Lexer := { pos := { l.pos with column := l.pos.column + 1 }, reader := rd }
        if r = '\n' then Lexer.LexLoopLog T n l1.resetPosition
        else if isOp r then
          Except.ok (({ pos := l1.pos, tok := opToken r, lit := String.singleton r }, l1), [])
        else if unicode.IsSpace T r then Lexer.LexLoopLog T n l1
        else if unicode.IsDigit T r then
          let startPos := l1.pos
          match l1.backup with
          | Except.error e => Except.error e
          | Except.ok l2 =>
            match classLoopLog (unicode.IsDigit T) Site.lexInt (l2.reader.src.length + 1) ""
                l2 with
            | Except.error e => Except.error e
            | Except.ok ((lit, l3), log) =>
              Except.ok (({ pos := startPos, tok := Token.INT, lit := lit }, l3),
                (Site.Lex, r) :: log)
        else if unicode.IsLetter T r then
          let startPos := l1.pos
          match l1.backup with
          | Except.error e => Except.error e
          | Except.ok l2 =>
            match classLoopLog (unicode.IsLetter T) Site.lexIdent
                (l2.reader.src.length + 1) "" l2 with
            | Except.error e => Except.error e
            | Except.ok ((lit, l3), log) =>
              Except.ok (({ pos := startPos, tok := Token.IDENT, lit := lit }, l3),
                (Site.Lex, r) :: log)
        else
          Except.ok (({ pos := l1.pos, tok := Token.ILLEGAL, lit := String.singleton r }, l1),
            [])

/-- A call of `Lex` together with the record of its successful `backup` calls; its first
component is `Lexer.Lex` (see `LexLog_erase`). -/
def Lexer.LexLog (T : UnicodeTables) (l : Lexer) :
    Except Abort ((Lexeme × Lexer) × List (Site × Char)) :=
  Lexer.LexLoopLog T (l.reader.src.length + 1) l

/-- The record of the `backup` of a continuation loop, read off the lexer the loop
leaves: the loop un-consumes the rune that is first in the unread input, or nothing when
it stopped at the end of input (see `classLoopLog_eq`). -/
def tailLog (site : Site) (l1 : Lexer) : List (Site × Char) :=
  match l1.reader.src.head? with
  | some (Item.rune c) => [(site, c)]
  | _ => []

/-- The record of the `backup` calls of a `Lex` call, read off the token it returned and
the lexer it left (see `LexLoopLog_eq`): for `INT` and `IDENT` the first rune of the text,
un-consumed by `Lex`, then the record of the continuation loop; nothing otherwise. -/
def pushbacks (t : Lexeme) (l1 : Lexer) : List (Site × Char) :=
  match t.tok, t.lit.data.head? with
  | Token.INT, some d => (Site.Lex, d) :: tailLog Site.lexInt l1
  | Token.IDENT, some d => (Site.Lex, d) :: tailLog Site.lexIdent l1
  | _, _ => []

/-! ## The tests of `Lex` made in another order -/

/-- The five categories that the dispatch of `Lex` tests, apart from the fallback. -/
inductive Category where
  | terminator | operator | space | digit | letter
  deriving DecidableEq, Repr

/-- The test `Lex` makes for a category: `case '\n'`, the six operator cases,
`unicode.IsSpace`, `unicode.IsDigit`, `unicode.IsLetter`. -/
def Category.test (T : UnicodeTables) : Category → Char → Bool
  | Category.terminator, c => c = '\n'
  | Category.operator, c => isOp c
  | Category.space, c => unicode.IsSpace T c
  | Category.digit, c => unicode.IsDigit T c
  | Category.letter, c => unicode.IsLetter T c

/-- The order in which `Lex` makes the tests. -/
def sourceOrder : List Category :=
  [Category.terminator, Category.operator, Category.space, Category.digit, Category.letter]

/-- The first category of `order` whose test accepts `c`, if any. -/
def classify (T : UnicodeTables) (order : List Category) (c : Char) : Option Category :=
  order.find? fun k => k.test T c

/-- The loop of `Lex` with the five tests made in the order `order` and each branch as
in the source; with `sourceOrder` it is `Lexer.LexLoop` (see `LexLoopBy_source`). -/
def Lexer.LexLoopBy (T : UnicodeTables) (order : List Category) :
    Nat → Lexer → Except Abort (Lexeme × Lexer)
  | 0, _ => Except.error Abort.outOfFuel
  | n + 1, l =>
    match l.reader.ReadRune with
    | (r, err, rd) =>
      if err = some Error.EOF then
        Except.ok ({ pos := l.pos, tok := Token.EOF, lit := "" }, { l with reader := rd })
      else if let some e := err then Except.error (Abort.panic e)
      else
        let l1 : Lexer := { pos := { l.pos with column := l.pos.column + 1 }, reader := rd }
        match classify T order r with
        | some Category.terminator => Lexer.LexLoopBy T order n l1.resetPosition
        | some Category.operator =>
          Except.ok ({ pos := l1.pos, tok := opToken r, lit := String.singleton r }, l1)
        | some Category.space => Lexer.LexLoopBy T order n l1
        | some Category.digit =>
          let startPos := l1.pos
          match l1.backup with
          | Except.error e => Except.error e
          | Except.ok l2 =>
            match l2.lexInt T with
            | Except.error e => Except.error e
            | Except.ok (lit, l3) => Except.ok ({ pos := startPos, tok := Token.INT, lit := lit }, l3)
        | some Category.letter =>
          let startPos := l1.pos
          match l1.backup with
          | Except.error e => Except.error e
          | Except.ok l2 =>
            match l2.lexIdent T with
            | Except.error e => Except.error e
            | Except.ok (lit, l3) =>
              Except.ok ({ pos := startPos, tok := Token.IDENT, lit := lit }, l3)
        | none => Except.ok ({ pos := l1.pos, tok := Token.ILLEGAL, lit := String.singleton r }, l1)

/-- A call of `Lex` with the tests made in the order `order`. -/
def Lexer.LexBy (T : UnicodeTables) (order : List Category) (l : Lexer) :
    Except Abort (Lexeme × Lexer) :=
  Lexer.LexLoopBy T order (l.reader.src.length + 1) l

/-! ## Lemmas: the continuation loops -/

theorem lexIntLoop_eq (T : UnicodeTables) :
    ∀ n lit l, Lexer.lexIntLoop T n lit l = classLoop (unicode.IsDigit T) n lit l := by
  intro n
  induction n with
  | zero => intro lit l; rfl
  | succ n ih => intro lit l; simp only [Lexer.lexIntLoop, classLoop, ih]

theorem lexIdentLoop_eq (T : UnicodeTables) :
    ∀ n lit l, Lexer.lexIdentLoop T n lit l = classLoop (unicode.IsLetter T) n lit l := by
  intro n
  induction n with
  | zero => intro lit l; rfl
  | succ n ih => intro lit l; simp only [Lexer.lexIdentLoop, classLoop, ih]

theorem classLoop_nil (p : Char → Bool) (n : Nat) (lit : String) (pos : Position)
    (last : Option Char) :
    classLoop p (n + 1) lit ⟨pos, ⟨[], last⟩⟩ = Except.ok (lit, ⟨pos, ⟨[], none⟩⟩) := by
  simp [classLoop, Reader.ReadRune]

theorem classLoop_fault (p : Char → Bool) (hp : p (Char.ofNat 0) = false) (n : Nat)
    (lit : String) (pos : Position) (rest : List Item) (last : Option Char) :
    classLoop p (n + 1) lit ⟨pos, ⟨Item.fault :: rest, last⟩⟩
      = Except.error (Abort.panic Error.ErrInvalidUnreadRune) := by
  simp [classLoop, Reader.ReadRune, hp, Lexer.backup, Reader.UnreadRune]

theorem classLoop_true (p : Char → Bool) (n : Nat) (lit : String) (pos : Position)
    (r : Char) (rest : List Item) (last : Option Char) (hr : p r = true) :
    classLoop p (n + 1) lit ⟨pos, ⟨Item.rune r :: rest, last⟩⟩
      = classLoop p n (lit ++ String.singleton r)
          ⟨⟨pos.line, pos.column + 1⟩, ⟨rest, some r⟩⟩ := by
  simp [classLoop, Reader.ReadRune, hr]

theorem classLoop_false (p : Char → Bool) (n : Nat) (lit : String) (pos : Position)
    (r : Char) (rest : List Item) (last : Option Char) (hr : p r = false) :
    classLoop p (n + 1) lit ⟨pos, ⟨Item.rune r :: rest, last⟩⟩
      = Except.ok (lit, ⟨pos, ⟨Item.rune r :: rest, none⟩⟩) := by
  simp [classLoop, Reader.ReadRune, hr, Lexer.backup, Reader.UnreadRune]

theorem classLoop_run (p : Char → Bool) :
    ∀ (ds : List Char) (n : Nat) (lit : String) (pos : Position) (rest : List Item)
      (last : Option Char),
      (∀ c ∈ ds, p c = true) →
      (∀ i ∈ rest.head?, ∃ c, i = Item.rune c ∧ p c = false) →
      ds.length < n →
      classLoop p n lit ⟨pos, ⟨runes ds ++ rest, last⟩⟩
        = Except.ok (⟨lit.data ++ ds⟩, ⟨⟨pos.line, pos.column + ds.length⟩, ⟨rest, none⟩⟩) := by
  intro ds
  induction ds with
  | nil =>
    intro n lit pos rest last _ hrest hn
    obtain ⟨m, rfl⟩ : ∃ m, n = m + 1 := ⟨n - 1, by simp at hn; omega⟩
    cases rest with
    | nil => simp [runes, classLoop_nil]
    | cons i rest =>
      obtain ⟨c, rfl, hc⟩ := hrest i (by simp)
      simp [runes, classLoop_false p m lit pos c rest last hc]
  | cons d ds ih =>
    intro n lit pos rest last hds hrest hn
    obtain ⟨m, rfl⟩ : ∃ m, n = m + 1 := ⟨n - 1, by simp at hn; omega⟩
    have hd : p d = true := hds d (by simp)
    have h1 : runes (d :: ds) ++ rest = Item.rune d :: (runes ds ++ rest) := by simp [runes]
    rw [h1, classLoop_true p m lit pos d _ last hd,
      ih m _ _ rest (some d) (fun c hc => hds c (by simp [hc])) hrest (by simp at hn; omega)]
    simp
    omega

theorem classLoop_sound (p : Char → Bool) (hp : p (Char.ofNat 0) = false) :
    ∀ (n : Nat) (lit : String) (pos : Position) (src : List Item) (last : Option Char)
      (lit1 : String) (l1 : Lexer),
      classLoop p n lit ⟨pos, ⟨src, last⟩⟩ = Except.ok (lit1, l1) →
      ∃ ds : List Char, (∀ c ∈ ds, p c = true) ∧ lit1.data = lit.data ++ ds ∧
        src = runes ds ++ l1.reader.src ∧
        l1.pos = ⟨pos.line, pos.column + ds.length⟩ ∧ l1.reader.last = none ∧
        (∀ i ∈ l1.reader.src.head?, ∃ c, i = Item.rune c ∧ p c = false) := by
  intro n
  induction n with
  | zero => intro lit pos src last lit1 l1 h; simp [classLoop] at h
  | succ n ih =>
    intro lit pos src last lit1 l1 h
    cases src with
    | nil =>
      rw [classLoop_nil] at h
      simp only [Except.ok.injEq, Prod.mk.injEq] at h
      obtain ⟨rfl, rfl⟩ := h
      exact ⟨[], by simp, by simp, by simp [runes], by simp, rfl, by simp⟩
    | cons i rest =>
      cases i with
      | fault => rw [classLoop_fault p hp] at h; simp at h
      | rune r =>
        by_cases hr : p r = true
        · rw [classLoop_true p n lit pos r rest last hr] at h
          obtain ⟨ds, h1, h2, h3, h4, h5, h6⟩ := ih _ _ _ _ _ _ h
          refine ⟨r :: ds, ?_, ?_, ?_, ?_, h5, h6⟩
          · intro c hc
            rcases List.mem_cons.1 hc with rfl | hc
            · exact hr
            · exact h1 c hc
          · simp [h2]
          · simp [runes, h3]
          · rw [h4]; simp; omega
        · have hr : p r = false := by simpa using hr
          rw [classLoop_false p n lit pos r rest last hr] at h
          simp only [Except.ok.injEq, Prod.mk.injEq] at h
          obtain ⟨rfl, rfl⟩ := h
          exact ⟨[], by simp, by simp, by simp [runes], by simp, rfl, by simp [hr]⟩

theorem classLoop_total (p : Char → Bool) :
    ∀ (src : List Item) (n : Nat) (lit : String) (pos : Position) (last : Option Char),
      (∀ i ∈ src, i ≠ Item.fault) → src.length < n →
      ∃ out, classLoop p n lit ⟨pos, ⟨src, last⟩⟩ = Except.ok out := by
  intro src
  induction src with
  | nil =>
    intro n lit pos last _ hn
    obtain ⟨m, rfl⟩ : ∃ m, n = m + 1 := ⟨n - 1, by simp at hn; omega⟩
    exact ⟨_, classLoop_nil p m lit pos last⟩
  | cons i rest ih =>
    intro n lit pos last hsrc hn
    obtain ⟨m, rfl⟩ : ∃ m, n = m + 1 := ⟨n - 1, by simp at hn; omega⟩
    cases i with
    | fault => exact absurd rfl (hsrc Item.fault (by simp))
    | rune r =>
      by_cases hr : p r = true
      · rw [classLoop_true p m lit pos r rest last hr]
        exact ih m _ _ _ (fun i hi => hsrc i (by simp [hi])) (by simp at hn; omega)
      · have hr : p r = false := by simpa using hr
        exact ⟨_, classLoop_false p m lit pos r rest last hr⟩

/-! ## Lemmas: character classes -/

theorem IsDigit_zero (T : UnicodeTables) : unicode.IsDigit T (Char.ofNat 0) = false := by rfl

theorem IsLetter_zero (T : UnicodeTables) : unicode.IsLetter T (Char.ofNat 0) = false := by rfl

theorem IsSpace_newline (T : UnicodeTables) : unicode.IsSpace T '\n' = true := by rfl

theorem isOp_false {c : Char} (h : isOp c = false) :
    c ≠ ';' ∧ c ≠ '+' ∧ c ≠ '-' ∧ c ≠ '*' ∧ c ≠ '/' ∧ c ≠ '=' := by
  simp [isOp] at h
  tauto

theorem IsDigit_plain (T : UnicodeTables) {c : Char} (h : unicode.IsDigit T c = true) :
    c ≠ '\n' ∧ isOp c = false := by
  have aux : ∀ d : Char, unicode.IsDigit T d = true → d ≠ '\n' ∧ d ≠ ';' ∧ d ≠ '+' ∧ d ≠ '-' ∧
      d ≠ '*' ∧ d ≠ '/' ∧ d ≠ '=' := by
    intro d hd
    refine ⟨?_, ?_, ?_, ?_, ?_, ?_, ?_⟩ <;> (intro e; subst e; exact Bool.false_ne_true hd)
  have := aux c h
  simp [isOp, this]

theorem IsLetter_plain (T : UnicodeTables) {c : Char} (h : unicode.IsLetter T c = true) :
    c ≠ '\n' ∧ isOp c = false := by
  have aux : ∀ d : Char, unicode.IsLetter T d = true → d ≠ '\n' ∧ d ≠ ';' ∧ d ≠ '+' ∧
      d ≠ '-' ∧ d ≠ '*' ∧ d ≠ '/' ∧ d ≠ '=' := by
    intro d hd
    refine ⟨?_, ?_, ?_, ?_, ?_, ?_, ?_⟩ <;> (intro e; subst e; exact Bool.false_ne_true hd)
  have := aux c h
  simp [isOp, this]

theorem IsSpace_not_op (T : UnicodeTables) {c : Char} (h : unicode.IsSpace T c = true) :
    isOp c = false := by
  have aux : ∀ d : Char, unicode.IsSpace T d = true → d ≠ ';' ∧ d ≠ '+' ∧ d ≠ '-' ∧
      d ≠ '*' ∧ d ≠ '/' ∧ d ≠ '=' := by
    intro d hd
    refine ⟨?_, ?_, ?_, ?_, ?_, ?_⟩ <;> (intro e; subst e; exact Bool.false_ne_true hd)
  have := aux c h
  simp [isOp, this]

theorem Separated_space (T : UnicodeTables) (hT : T.Separated) {c : Char}
    (h : unicode.IsSpace T c = true) :
    unicode.IsDigit T c = false ∧ unicode.IsLetter T c = false := by
  unfold unicode.IsSpace at h
  unfold unicode.IsDigit unicode.IsLetter
  by_cases hc : c.toNat ≤ unicode.MaxLatin1
  · simp only [hc, if_true] at h ⊢
    simp only [Bool.or_eq_true, decide_eq_true_eq] at h
    rcases h with ((((((h | h) | h) | h) | h) | h) | h) | h <;> simp [h]
  · simp only [hc, if_false] at h ⊢
    exact (hT c).1 h

theorem Separated_digit (T : UnicodeTables) (hT : T.Separated) {c : Char}
    (h : unicode.IsDigit T c = true) : unicode.IsLetter T c = false := by
  unfold unicode.IsDigit at h
  unfold unicode.IsLetter
  by_cases hc : c.toNat ≤ unicode.MaxLatin1
  · simp only [hc, if_true] at h ⊢
    simp only [Bool.and_eq_true, decide_eq_true_eq] at h
    simp only [Bool.or_eq_false_iff, Bool.and_eq_false_imp, decide_eq_true_eq,
      decide_eq_false_iff_not]
    omega
  · simp only [hc, if_false] at h ⊢
    exact (hT c).2 h

theorem Separated_latin1 : UnicodeTables.latin1.Separated := by
  intro c; simp [UnicodeTables.latin1]

/-! ## Lemmas: one step of the dispatch loop -/

theorem LexLoop_nil (T : UnicodeTables) (n : Nat) (pos : Position) (last : Option Char) :
    Lexer.LexLoop T (n + 1) ⟨pos, ⟨[], last⟩⟩
      = Except.ok (⟨pos, Token.EOF, ""⟩, ⟨pos, ⟨[], none⟩⟩) := by
  simp [Lexer.LexLoop, Reader.ReadRune]

theorem LexLoop_fault (T : UnicodeTables) (n : Nat) (pos : Position) (rest : List Item)
    (last : Option Char) :
    Lexer.LexLoop T (n + 1) ⟨pos, ⟨Item.fault :: rest, last⟩⟩
      = Except.error (Abort.panic Error.fault) := by
  simp [Lexer.LexLoop, Reader.ReadRune]

theorem LexLoop_newline (T : UnicodeTables) (n : Nat) (pos : Position) (rest : List Item)
    (last : Option Char) :
    Lexer.LexLoop T (n + 1) ⟨pos, ⟨Item.rune '\n' :: rest, last⟩⟩
      = Lexer.LexLoop T n ⟨⟨pos.line + 1, 0⟩, ⟨rest, some '\n'⟩⟩ := by
  simp [Lexer.LexLoop, Reader.ReadRune, Lexer.resetPosition]

theorem LexLoop_op (T : UnicodeTables) (n : Nat) (pos : Position) (c : Char)
    (rest : List Item) (last : Option Char) (hc : isOp c = true) :
    Lexer.LexLoop T (n + 1) ⟨pos, ⟨Item.rune c :: rest, last⟩⟩
      = Except.ok (⟨⟨pos.line, pos.column + 1⟩, opToken c, String.singleton c⟩,
          ⟨⟨pos.line, pos.column + 1⟩, ⟨rest, some c⟩⟩) := by
  simp only [isOp, Bool.or_eq_true, decide_eq_true_eq] at hc
  rcases hc with ((((rfl | rfl) | rfl) | rfl) | rfl) | rfl <;>
    simp [Lexer.LexLoop, Reader.ReadRune, opToken] <;> rfl

theorem LexLoop_space (T : UnicodeTables) (n : Nat) (pos : Position) (c : Char)
    (rest : List Item) (last : Option Char) (hn : c ≠ '\n')
    (hc : unicode.IsSpace T c = true) :
    Lexer.LexLoop T (n + 1) ⟨pos, ⟨Item.rune c :: rest, last⟩⟩
      = Lexer.LexLoop T n ⟨⟨pos.line, pos.column + 1⟩, ⟨rest, some c⟩⟩ := by
  obtain ⟨h1, h2, h3, h4, h5, h6⟩ := isOp_false (IsSpace_not_op T hc)
  simp [Lexer.LexLoop, Reader.ReadRune, hn, h1, h2, h3, h4, h5, h6, hc]

theorem LexLoop_digit (T : UnicodeTables) (n : Nat) (pos : Position) (c : Char)
    (rest : List Item) (last : Option Char) (hs : unicode.IsSpace T c = false)
    (hc : unicode.IsDigit T c = true) :
    Lexer.LexLoop T (n + 1) ⟨pos, ⟨Item.rune c :: rest, last⟩⟩
      = match classLoop (unicode.IsDigit T) (rest.length + 2) ""
            ⟨pos, ⟨Item.rune c :: rest, none⟩⟩ with
        | Except.error e => Except.error e
        | Except.ok (lit, l3) =>
          Except.ok (⟨⟨pos.line, pos.column + 1⟩, Token.INT, lit⟩, l3) := by
  obtain ⟨hn, hop⟩ := IsDigit_plain T hc
  obtain ⟨h1, h2, h3, h4, h5, h6⟩ := isOp_false hop
  simp [Lexer.LexLoop, Reader.ReadRune, hn, h1, h2, h3, h4, h5, h6, hc, hs, Lexer.backup,
    Reader.UnreadRune, Lexer.lexInt, lexIntLoop_eq]

theorem LexLoop_letter (T : UnicodeTables) (n : Nat) (pos : Position) (c : Char)
    (rest : List Item) (last : Option Char) (hs : unicode.IsSpace T c = false)
    (hd : unicode.IsDigit T c = false) (hc : unicode.IsLetter T c = true) :
    Lexer.LexLoop T (n + 1) ⟨pos, ⟨Item.rune c :: rest, last⟩⟩
      = match classLoop (unicode.IsLetter T) (rest.length + 2) ""
            ⟨pos, ⟨Item.rune c :: rest, none⟩⟩ with
        | Except.error e => Except.error e
        | Except.ok (lit, l3) =>
          Except.ok (⟨⟨pos.line, pos.column + 1⟩, Token.IDENT, lit⟩, l3) := by
  obtain ⟨hn, hop⟩ := IsLetter_plain T hc
  obtain ⟨h1, h2, h3, h4, h5, h6⟩ := isOp_false hop
  simp [Lexer.LexLoop, Reader.ReadRune, hn, h1, h2, h3, h4, h5, h6, hc, hs, hd, Lexer.backup,
    Reader.UnreadRune, Lexer.lexIdent, lexIdentLoop_eq]

theorem LexLoop_illegal (T : UnicodeTables) (n : Nat) (pos : Position) (c : Char)
    (rest : List Item) (last : Option Char) (hn : c ≠ '\n') (hop : isOp c = false)
    (hs : unicode.IsSpace T c = false) (hd : unicode.IsDigit T c = false)
    (hc : unicode.IsLetter T c = false) :
    Lexer.LexLoop T (n + 1) ⟨pos, ⟨Item.rune c :: rest, last⟩⟩
      = Except.ok (⟨⟨pos.line, pos.column + 1⟩, Token.ILLEGAL, String.singleton c⟩,
          ⟨⟨pos.line, pos.column + 1⟩, ⟨rest, some c⟩⟩) := by
  obtain ⟨h1, h2, h3, h4, h5, h6⟩ := isOp_false hop
  simp [Lexer.LexLoop, Reader.ReadRune, hn, h1, h2, h3, h4, h5, h6, hc, hs, hd]

/-! ## Lemmas: positions -/

theorem advance_append (cs ds : List Char) :
    ∀ p : Position, advance p (cs ++ ds) = advance (advance p cs) ds := by
  induction cs with
  | nil => intro p; rfl
  | cons c cs ih =>
    intro p
    by_cases hc : c = '\n'
    · simp [advance, hc, ih]
    · simp [advance, hc, ih]

theorem advance_plain (cs : List Char) :
    ∀ p : Position, (∀ c ∈ cs, c ≠ '\n') →
      advance p cs = ⟨p.line, p.column + cs.length⟩ := by
  induction cs with
  | nil => intro p _; simp [advance]
  | cons c cs ih =>
    intro p h
    have hc : c ≠ '\n' := h c (by simp)
    rw [advance, if_neg hc, ih _ (fun d hd => h d (by simp [hd]))]
    simp
    omega

theorem opToken_ne (c : Char) :
    opToken c ≠ Token.EOF ∧ opToken c ≠ Token.ILLEGAL ∧ opToken c ≠ Token.INT ∧
      opToken c ≠ Token.IDENT := by
  unfold opToken
  refine ⟨?_, ?_, ?_, ?_⟩ <;> (repeat' split) <;> simp

theorem Shape_op (T : UnicodeTables) (c : Char) (hc : isOp c = true) (p : Position)
    (l1 : Lexer) (hl : l1.reader.last = some c) :
    Shape T ⟨p, opToken c, String.singleton c⟩ l1 := by
  obtain ⟨h1, h2, h3, h4⟩ := opToken_ne c
  unfold Shape
  split
  · next h => exact absurd h h1
  · next h => exact absurd h h2
  · next h => exact absurd h h3
  · next h => exact absurd h h4
  · exact ⟨c, hc, rfl, rfl, hl⟩

/-! ## Lemmas: what a call of `Lex` does -/

theorem LexLoop_sound (T : UnicodeTables) :
    ∀ (n : Nat) (pos : Position) (src : List Item) (last : Option Char) (t : Lexeme)
      (l1 : Lexer),
      Lexer.LexLoop T n ⟨pos, ⟨src, last⟩⟩ = Except.ok (t, l1) →
      ∃ ws : List Char, (∀ c ∈ ws, c = '\n' ∨ unicode.IsSpace T c = true) ∧
        src = runes (ws ++ t.lit.data) ++ l1.reader.src ∧
        t.pos = advance pos (ws ++ t.lit.data.take 1) ∧
        l1.pos = advance pos (ws ++ t.lit.data) ∧
        (∀ c ∈ t.lit.data, c ≠ '\n') ∧ Shape T t l1 := by
  intro n
  induction n with
  | zero => intro pos src last t l1 h; simp [Lexer.LexLoop] at h
  | succ n ih =>
    intro pos src last t l1 h
    cases src with
    | nil =>
      rw [LexLoop_nil] at h
      simp only [Except.ok.injEq, Prod.mk.injEq] at h
      obtain ⟨rfl, rfl⟩ := h
      exact ⟨[], by simp, by simp [runes], by simp [advance], by simp [advance], by simp,
        by simp [Shape]⟩
    | cons i rest =>
      cases i with
      | fault => rw [LexLoop_fault] at h; simp at h
      | rune r =>
        by_cases hn : r = '\n'
        · subst hn
          rw [LexLoop_newline] at h
          obtain ⟨ws, h1, h2, h3, h4, h5, h6⟩ := ih _ _ _ _ _ h
          refine ⟨'\n' :: ws, ?_, ?_, ?_, ?_, h5, h6⟩
          · intro c hc
            rcases List.mem_cons.1 hc with rfl | hc
            · exact Or.inl rfl
            · exact h1 c hc
          · simp [runes] at h2 ⊢; exact h2
          · simp [advance, h3]
          · simp [advance, h4]
        by_cases hop : isOp r = true
        · rw [LexLoop_op T n pos r rest last hop] at h
          simp only [Except.ok.injEq, Prod.mk.injEq] at h
          obtain ⟨rfl, rfl⟩ := h
          exact ⟨[], by simp, by simp [runes], by simp [advance, hn], by simp [advance, hn],
            by simp [hn], Shape_op T r hop _ _ rfl⟩
        have hop : isOp r = false := by simpa using hop
        by_cases hs : unicode.IsSpace T r = true
        · rw [LexLoop_space T n pos r rest last hn hs] at h
          obtain ⟨ws, h1, h2, h3, h4, h5, h6⟩ := ih _ _ _ _ _ h
          refine ⟨r :: ws, ?_, ?_, ?_, ?_, h5, h6⟩
          · intro c hc
            rcases List.mem_cons.1 hc with rfl | hc
            · exact Or.inr hs
            · exact h1 c hc
          · simp [runes] at h2 ⊢; exact h2
          · simp [advance, h3, hn]
          · simp [advance, h4, hn]
        have hs : unicode.IsSpace T r = false := by simpa using hs
        by_cases hd : unicode.IsDigit T r = true
        · rw [LexLoop_digit T n pos r rest last hs hd] at h
          cases hcl : classLoop (unicode.IsDigit T) (rest.length + 2) ""
              ⟨pos, ⟨Item.rune r :: rest, none⟩⟩ with
          | error e => simp [hcl] at h
          | ok out =>
            obtain ⟨lit, l3⟩ := out
            simp only [hcl, Except.ok.injEq, Prod.mk.injEq] at h
            obtain ⟨rfl, rfl⟩ := h
            obtain ⟨ds, g1, g2, g3, g4, g5, g6⟩ :=
              classLoop_sound _ (IsDigit_zero T) _ _ _ _ _ _ _ hcl
            cases ds with
            | nil =>
              simp [runes] at g3
              obtain ⟨c, hc1, hc2⟩ := g6 (Item.rune r) (by simp [← g3])
              simp at hc1; subst hc1; simp [hd] at hc2
            | cons d ds =>
              simp [runes] at g3
              obtain ⟨rfl, g3⟩ := g3
              simp at g2
              have hnl : ∀ c ∈ r :: ds, c ≠ '\n' := fun c hc => (IsDigit_plain T (g1 c hc)).1
              refine ⟨[], by simp, by simp [runes, g2, g3], by simp [g2, advance, hn], ?_,
                by simpa [g2] using hnl, ?_⟩
              · simp only [g2, List.nil_append, g4, advance_plain _ pos hnl]
              · simp only [Shape, g2]
                exact ⟨by simp, g1, by simp [hs], g5, g6⟩
        have hd : unicode.IsDigit T r = false := by simpa using hd
        by_cases hl : unicode.IsLetter T r = true
        · rw [LexLoop_letter T n pos r rest last hs hd hl] at h
          cases hcl : classLoop (unicode.IsLetter T) (rest.length + 2) ""
              ⟨pos, ⟨Item.rune r :: rest, none⟩⟩ with
          | error e => simp [hcl] at h
          | ok out =>
            obtain ⟨lit, l3⟩ := out
            simp only [hcl, Except.ok.injEq, Prod.mk.injEq] at h
            obtain ⟨rfl, rfl⟩ := h
            obtain ⟨ds, g1, g2, g3, g4, g5, g6⟩ :=
              classLoop_sound _ (IsLetter_zero T) _ _ _ _ _ _ _ hcl
            cases ds with
            | nil =>
              simp [runes] at g3
              obtain ⟨c, hc1, hc2⟩ := g6 (Item.rune r) (by simp [← g3])
              simp at hc1; subst hc1; simp [hl] at hc2
            | cons d ds =>
              simp [runes] at g3
              obtain ⟨rfl, g3⟩ := g3
              simp at g2
              have hnl : ∀ c ∈ r :: ds, c ≠ '\n' := fun c hc => (IsLetter_plain T (g1 c hc)).1
              refine ⟨[], by simp, by simp [runes, g2, g3], by simp [g2, advance, hn], ?_,
                by simpa [g2] using hnl, ?_⟩
              · simp only [g2, List.nil_append, g4, advance_plain _ pos hnl]
              · simp only [Shape, g2]
                exact ⟨by simp, g1, by simp [hs, hd], g5, g6⟩
        have hl : unicode.IsLetter T r = false := by simpa using hl
        rw [LexLoop_illegal T n pos r rest last hn hop hs hd hl] at h
        simp only [Except.ok.injEq, Prod.mk.injEq] at h
        obtain ⟨rfl, rfl⟩ := h
        exact ⟨[], by simp, by simp [runes], by simp [advance, hn], by simp [advance, hn],
          by simp [hn], by simp only [Shape]; exact ⟨r, rfl, rfl, hn, hop, hs, hd, hl⟩⟩

theorem LexLoop_total (T : UnicodeTables) :
    ∀ (src : List Item) (n : Nat) (pos : Position) (last : Option Char),
      (∀ i ∈ src, i ≠ Item.fault) → src.length < n →
      ∃ out, Lexer.LexLoop T n ⟨pos, ⟨src, last⟩⟩ = Except.ok out := by
  intro src
  induction src with
  | nil =>
    intro n pos last _ hn
    obtain ⟨m, rfl⟩ : ∃ m, n = m + 1 := ⟨n - 1, by simp at hn; omega⟩
    exact ⟨_, LexLoop_nil T m pos last⟩
  | cons i rest ih =>
    intro n pos last hsrc hn
    obtain ⟨m, rfl⟩ : ∃ m, n = m + 1 := ⟨n - 1, by simp at hn; omega⟩
    have hrest : ∀ i ∈ rest, i ≠ Item.fault := fun i hi => hsrc i (by simp [hi])
    have hm : rest.length < m := by simp at hn; omega
    cases i with
    | fault => exact absurd rfl (hsrc Item.fault (by simp))
    | rune r =>
      by_cases hn : r = '\n'
      · subst hn
        rw [LexLoop_newline]
        exact ih m _ _ hrest hm
      by_cases hop : isOp r = true
      · exact ⟨_, LexLoop_op T m pos r rest last hop⟩
      have hop : isOp r = false := by simpa using hop
      by_cases hs : unicode.IsSpace T r = true
      · rw [LexLoop_space T m pos r rest last hn hs]
        exact ih m _ _ hrest hm
      have hs : unicode.IsSpace T r = false := by simpa using hs
      by_cases hd : unicode.IsDigit T r = true
      · rw [LexLoop_digit T m pos r rest last hs hd]
        obtain ⟨out, hout⟩ := classLoop_total (unicode.IsDigit T) (Item.rune r :: rest)
          (rest.length + 2) "" pos none hsrc (by simp)
        rw [hout]
        exact ⟨_, rfl⟩
      have hd : unicode.IsDigit T r = false := by simpa using hd
      by_cases hl : unicode.IsLetter T r = true
      · rw [LexLoop_letter T m pos r rest last hs hd hl]
        obtain ⟨out, hout⟩ := classLoop_total (unicode.IsLetter T) (Item.rune r :: rest)
          (rest.length + 2) "" pos none hsrc (by simp)
        rw [hout]
        exact ⟨_, rfl⟩
      have hl : unicode.IsLetter T r = false := by simpa using hl
      exact ⟨_, LexLoop_illegal T m pos r rest last hn hop hs hd hl⟩

theorem LexLoop_skip (T : UnicodeTables) :
    ∀ (ws : List Char) (n : Nat) (pos : Position) (rest : List Item) (last : Option Char),
      (∀ c ∈ ws, c = '\n' ∨ unicode.IsSpace T c = true) →
      ∃ last1, Lexer.LexLoop T (n + ws.length) ⟨pos, ⟨runes ws ++ rest, last⟩⟩
        = Lexer.LexLoop T n ⟨advance pos ws, ⟨rest, last1⟩⟩ := by
  intro ws
  induction ws with
  | nil => intro n pos rest last _; exact ⟨last, by simp [runes, advance]⟩
  | cons c ws ih =>
    intro n pos rest last h
    have hws : ∀ d ∈ ws, d = '\n' ∨ unicode.IsSpace T d = true :=
      fun d hd => h d (by simp [hd])
    have e : n + (c :: ws).length = (n + ws.length) + 1 := by simp; omega
    have e2 : runes (c :: ws) ++ rest = Item.rune c :: (runes ws ++ rest) := by simp [runes]
    rw [e, e2]
    by_cases hn : c = '\n'
    · subst hn
      rw [LexLoop_newline]
      obtain ⟨last1, h1⟩ := ih n ⟨pos.line + 1, 0⟩ rest (some '\n') hws
      exact ⟨last1, by rw [h1]; simp [advance]⟩
    · have hs : unicode.IsSpace T c = true := (h c (by simp)).resolve_left hn
      rw [LexLoop_space T _ pos c _ last hn hs]
      obtain ⟨last1, h1⟩ := ih n ⟨pos.line, pos.column + 1⟩ rest (some c) hws
      exact ⟨last1, by rw [h1]; simp [advance, hn]⟩

theorem Lex_sound (T : UnicodeTables) (l : Lexer) (t : Lexeme) (l1 : Lexer)
    (h : l.Lex T = Except.ok (t, l1)) :
    ∃ ws : List Char, (∀ c ∈ ws, c = '\n' ∨ unicode.IsSpace T c = true) ∧
      l.reader.src = runes (ws ++ t.lit.data) ++ l1.reader.src ∧
      t.pos = advance l.pos (ws ++ t.lit.data.take 1) ∧
      l1.pos = advance l.pos (ws ++ t.lit.data) ∧
      (∀ c ∈ t.lit.data, c ≠ '\n') ∧ Shape T t l1 :=
  LexLoop_sound T _ l.pos l.reader.src l.reader.last t l1 h

theorem Lex_total (T : UnicodeTables) (l : Lexer) (h : ∀ i ∈ l.reader.src, i ≠ Item.fault) :
    ∃ out, l.Lex T = Except.ok out :=
  LexLoop_total T l.reader.src _ l.pos l.reader.last h (Nat.lt_succ_self _)

theorem Shape_nonempty (T : UnicodeTables) (t : Lexeme) (l1 : Lexer) (h : Shape T t l1)
    (ht : t.tok ≠ Token.EOF) : t.lit.data ≠ [] := by
  unfold Shape at h
  split at h
  · next e => exact absurd e ht
  · obtain ⟨c, hc, _⟩ := h; simp [hc]
  · exact h.1
  · exact h.1
  · obtain ⟨c, _, _, hc, _⟩ := h; simp [hc]

theorem runes_split :
    ∀ (a b : List Char) (s : List Item), runes a ++ s = runes b →
      ∃ c, s = runes c ∧ b = a ++ c := by
  intro a
  induction a with
  | nil => intro b s h; exact ⟨b, by simpa [runes] using h, rfl⟩
  | cons x a ih =>
    intro b s h
    cases b with
    | nil => simp [runes] at h
    | cons y b =>
      simp only [runes, List.map_cons, List.cons_append, List.cons.injEq,
        Item.rune.injEq] at h
      obtain ⟨rfl, h⟩ := h
      obtain ⟨c, hc, rfl⟩ := ih b s h
      exact ⟨c, hc, rfl⟩

theorem runes_no_fault (cs : List Char) : ∀ i ∈ runes cs, i ≠ Item.fault := by
  intro i hi
  simp only [runes, List.mem_map] at hi
  obtain ⟨c, _, rfl⟩ := hi
  simp

theorem runes_head (p : Char → Bool) (rest : List Char)
    (h : ∀ c ∈ rest.head?, p c = false) :
    ∀ i ∈ (runes rest).head?, ∃ c, i = Item.rune c ∧ p c = false := by
  cases rest with
  | nil => simp [runes]
  | cons c rest =>
    intro i hi
    simp [runes] at hi
    exact ⟨c, hi.symm, h c (by simp)⟩

theorem Lex_digit_run (T : UnicodeTables) (l : Lexer) (d : Char) (ds rest : List Char)
    (hs : unicode.IsSpace T d = false)
    (hds : ∀ c ∈ d :: ds, unicode.IsDigit T c = true)
    (hrest : ∀ c ∈ rest.head?, unicode.IsDigit T c = false)
    (hsrc : l.reader.src = runes (d :: ds ++ rest)) :
    l.Lex T = Except.ok (⟨⟨l.pos.line, l.pos.column + 1⟩, Token.INT, ⟨d :: ds⟩⟩,
      ⟨⟨l.pos.line, l.pos.column + (d :: ds).length⟩, ⟨runes rest, none⟩⟩) := by
  obtain ⟨pos, ⟨src, last⟩⟩ := l
  simp only at hsrc
  subst hsrc
  have e : runes (d :: ds ++ rest) = Item.rune d :: runes (ds ++ rest) := by simp [runes]
  have e2 : Item.rune d :: runes (ds ++ rest) = runes (d :: ds) ++ runes rest := by
    simp [runes]
  unfold Lexer.Lex
  simp only [e]
  rw [LexLoop_digit T _ pos d _ last hs (hds d (by simp)), e2,
    classLoop_run (unicode.IsDigit T) (d :: ds) _ "" pos (runes rest) none hds
      (runes_head _ rest hrest) (by simp [runes]; omega)]
  simp

theorem Lex_letter_run (T : UnicodeTables) (l : Lexer) (d : Char) (ds rest : List Char)
    (hs : unicode.IsSpace T d = false) (hd : unicode.IsDigit T d = false)
    (hds : ∀ c ∈ d :: ds, unicode.IsLetter T c = true)
    (hrest : ∀ c ∈ rest.head?, unicode.IsLetter T c = false)
    (hsrc : l.reader.src = runes (d :: ds ++ rest)) :
    l.Lex T = Except.ok (⟨⟨l.pos.line, l.pos.column + 1⟩, Token.IDENT, ⟨d :: ds⟩⟩,
      ⟨⟨l.pos.line, l.pos.column + (d :: ds).length⟩, ⟨runes rest, none⟩⟩) := by
  obtain ⟨pos, ⟨src, last⟩⟩ := l
  simp only at hsrc
  subst hsrc
  have e : runes (d :: ds ++ rest) = Item.rune d :: runes (ds ++ rest) := by simp [runes]
  have e2 : Item.rune d :: runes (ds ++ rest) = runes (d :: ds) ++ runes rest := by
    simp [runes]
  unfold Lexer.Lex
  simp only [e]
  rw [LexLoop_letter T _ pos d _ last hs hd (hds d (by simp)), e2,
    classLoop_run (unicode.IsLetter T) (d :: ds) _ "" pos (runes rest) none hds
      (runes_head _ rest hrest) (by simp [runes]; omega)]
  simp

theorem digit_not_space (T : UnicodeTables) (hT : T.Separated) {c : Char}
    (h : unicode.IsDigit T c = true) : unicode.IsSpace T c = false := by
  cases hs : unicode.IsSpace T c with
  | false => rfl
  | true => rw [(Separated_space T hT hs).1] at h; cases h

theorem letter_not_space (T : UnicodeTables) (hT : T.Separated) {c : Char}
    (h : unicode.IsLetter T c = true) : unicode.IsSpace T c = false := by
  cases hs : unicode.IsSpace T c with
  | false => rfl
  | true => rw [(Separated_space T hT hs).2] at h; cases h

theorem letter_not_digit (T : UnicodeTables) (hT : T.Separated) {c : Char}
    (h : unicode.IsLetter T c = true) : unicode.IsDigit T c = false := by
  cases hs : unicode.IsDigit T c with
  | false => rfl
  | true => rw [Separated_digit T hT hs] at h; cases h

theorem lineTail_snoc (cs : List Char) (c : Char) :
    lineTail (cs ++ [c]) = if c = '\n' then 0 else lineTail cs + 1 := by
  unfold lineTail
  by_cases hc : c = '\n'
  · simp [hc, List.takeWhile]
  · simp [hc, List.takeWhile]

theorem advance_eq (cs : List Char) (p : Position) :
    advance p cs = ⟨p.line + cs.count '\n',
      if '\n' ∈ cs then (lineTail cs : Int) else p.column + lineTail cs⟩ := by
  induction cs using List.reverseRecOn with
  | nil => simp [advance, lineTail]
  | append_singleton cs c ih =>
    rw [advance_append, ih, lineTail_snoc]
    by_cases hc : c = '\n'
    · subst hc
      simp [advance]
      omega
    · have hc2 : ¬ '\n' = c := fun e => hc e.symm
      by_cases hm : '\n' ∈ cs
      · simp [advance, hc, hc2, hm, List.count_singleton]
      · simp [advance, hc, hc2, hm, List.count_singleton]
        omega

theorem after_inv (T : UnicodeTables) :
    ∀ (k : Nat) (l0 l : Lexer) (cs : List Char), l0.reader.src = runes cs →
      Lexer.after T k l0 = Except.ok l →
      ∃ pre rest, cs = pre ++ rest ∧ l.reader.src = runes rest ∧
        l.pos = advance l0.pos pre := by
  intro k
  induction k with
  | zero =>
    intro l0 l cs h0 h
    simp only [Lexer.after, Except.ok.injEq] at h
    subst h
    exact ⟨[], cs, rfl, h0, rfl⟩
  | succ k ih =>
    intro l0 l cs h0 h
    rw [Lexer.after] at h
    cases hl : l0.Lex T with
    | error e => simp [hl] at h
    | ok out =>
      obtain ⟨t, l1⟩ := out
      simp only [hl] at h
      obtain ⟨ws, -, h2, -, h4, -, -⟩ := Lex_sound T l0 t l1 hl
      rw [h0] at h2
      obtain ⟨c, hc, rfl⟩ := runes_split _ _ _ h2.symm
      obtain ⟨pre, rest, e1, e2, e3⟩ := ih l1 l c hc h
      subst e1
      refine ⟨(ws ++ t.lit.data) ++ pre, rest, by simp, e2, ?_⟩
      rw [e3, h4]
      simp [advance_append]

/-! ## Lemmas: repeated calls -/

theorem filter_blank (T : UnicodeTables) (ws : List Char)
    (h : ∀ c ∈ ws, c = '\n' ∨ unicode.IsSpace T c = true) :
    ws.filter (fun c => !isBlank T c) = [] := by
  rw [List.filter_eq_nil_iff]
  intro c hc
  rcases h c hc with h | h <;> simp [isBlank, h]

theorem scan_spec (T : UnicodeTables) :
    ∀ (n : Nat) (l : Lexer) (cs : List Char), l.reader.src = runes cs → cs.length < n →
      ∃ ts, Lexer.scan T n l = Except.ok ts ∧ ts.length ≤ cs.length + 1 ∧
        cs.filter (fun c => !isBlank T c)
          = (ts.map fun t => t.lit.data.filter fun c => !isBlank T c).flatten ∧
        ∀ t ∈ ts, (∃ l1, Shape T t l1) ∧ ∀ c ∈ t.lit.data, c ∈ cs := by
  intro n
  induction n with
  | zero => intro l cs _ h; simp at h
  | succ n ih =>
    intro l cs hsrc hn
    obtain ⟨⟨t, l1⟩, hl⟩ := Lex_total T l (by rw [hsrc]; exact runes_no_fault cs)
    obtain ⟨ws, h1, h2, -, -, -, h6⟩ := Lex_sound T l t l1 hl
    rw [hsrc] at h2
    obtain ⟨post, hpost, rfl⟩ := runes_split _ _ _ h2.symm
    rw [Lexer.scan, hl]
    by_cases he : t.tok = Token.EOF
    · have hs := h6
      simp only [Shape, he] at hs
      have hlit : t.lit.data = [] := by rw [hs.1]
      refine ⟨[t], by simp [he], by simp, ?_, ?_⟩
      · rw [hs.2] at hpost
        have hp : post = [] := by
          cases post with
          | nil => rfl
          | cons c post => simp [runes] at hpost
        simp [hlit, hp, filter_blank T ws h1]
      · intro t1 ht1
        simp only [List.mem_singleton] at ht1
        subst ht1
        exact ⟨⟨l1, h6⟩, by simp [hlit]⟩
    · have hlit := Shape_nonempty T t l1 h6 he
      have hlen : 0 < t.lit.data.length := List.length_pos.2 hlit
      have hlen1 : t.lit.length = t.lit.data.length := rfl
      obtain ⟨ts, g1, g2, g3, g4⟩ := ih l1 post hpost (by simp at hn; omega)
      refine ⟨t :: ts, by simp [he, g1], by simp; omega, ?_, ?_⟩
      · simp [List.filter_append, filter_blank T ws h1, g3]
      · intro t1 ht1
        rcases List.mem_cons.1 ht1 with rfl | ht1
        · exact ⟨⟨l1, h6⟩, fun c hc => by simp [hc]⟩
        · exact ⟨(g4 t1 ht1).1, fun c hc => by simp [(g4 t1 ht1).2 c hc]⟩

theorem after_total (T : UnicodeTables) :
    ∀ (k : Nat) (l : Lexer), (∀ i ∈ l.reader.src, i ≠ Item.fault) →
      ∃ lk, Lexer.after T k l = Except.ok lk ∧ ∀ i ∈ lk.reader.src, i ≠ Item.fault := by
  intro k
  induction k with
  | zero => intro l h; exact ⟨l, rfl, h⟩
  | succ k ih =>
    intro l h
    obtain ⟨⟨t, l1⟩, hl⟩ := Lex_total T l h
    obtain ⟨ws, -, h2, -⟩ := Lex_sound T l t l1 hl
    have h1 : ∀ i ∈ l1.reader.src, i ≠ Item.fault := fun i hi =>
      h i (by rw [h2]; exact List.mem_append_right _ hi)
    obtain ⟨lk, g1, g2⟩ := ih l1 h1
    exact ⟨lk, by rw [Lexer.after, hl]; exact g1, g2⟩

theorem advance_line_le (cs : List Char) (p : Position) :
    p.line ≤ (advance p cs).line ∧
      ((advance p cs).line = p.line → (advance p cs).column = p.column + cs.length) := by
  constructor
  · rw [advance_eq]; simp
  · intro h
    rw [advance_eq] at h
    simp only at h
    have hc : cs.count '\n' = 0 := by omega
    rw [advance_plain cs p fun c hc1 e => List.count_eq_zero.1 hc (e ▸ hc1)]

theorem runes_inj (a b : List Char) (h : runes a = runes b) : a = b := by
  obtain ⟨c, hc, rfl⟩ := runes_split a b [] (by simpa using h)
  cases c with
  | nil => simp
  | cons x c => simp [runes] at hc

theorem Lex_blank (T : UnicodeTables) (l : Lexer) (cs : List Char)
    (hcs : ∀ c ∈ cs, unicode.IsSpace T c = true ∨ c = '\n')
    (hsrc : l.reader.src = runes cs) :
    l.Lex T = Except.ok (⟨advance l.pos cs, Token.EOF, ""⟩,
      ⟨advance l.pos cs, ⟨[], none⟩⟩) := by
  obtain ⟨pos, ⟨src, last⟩⟩ := l
  simp only at hsrc
  subst hsrc
  obtain ⟨last1, h1⟩ := LexLoop_skip T cs 1 pos [] last (fun w hw => (hcs w hw).symm)
  unfold Lexer.Lex
  have e : (runes cs).length + 1 = 1 + cs.length := by simp [runes]; omega
  simp only [e]
  rw [List.append_nil] at h1
  rw [h1, LexLoop_nil]

theorem Lex_op (T : UnicodeTables) (l : Lexer) (ws : List Char) (c : Char)
    (rest : List Item)
    (hws : ∀ w ∈ ws, unicode.IsSpace T w = true ∨ w = '\n') (hc : isOp c = true)
    (hsrc : l.reader.src = runes ws ++ Item.rune c :: rest) :
    l.Lex T = Except.ok (⟨advance l.pos (ws ++ [c]), opToken c, String.singleton c⟩,
      ⟨advance l.pos (ws ++ [c]), ⟨rest, some c⟩⟩) := by
  obtain ⟨pos, ⟨src, last⟩⟩ := l
  simp only at hsrc
  subst hsrc
  obtain ⟨last1, h1⟩ := LexLoop_skip T ws (rest.length + 1 + 1) pos
    (Item.rune c :: rest) last (fun w hw => (hws w hw).symm)
  have hn : c ≠ '\n' := by
    intro e; subst e; exact Bool.false_ne_true hc
  have e : (runes ws ++ Item.rune c :: rest).length + 1 = (rest.length + 1 + 1) + ws.length := by
    simp [runes]; omega
  unfold Lexer.Lex
  simp only [e]
  rw [h1, LexLoop_op T _ _ c rest last1 hc, advance_append]
  simp [advance, hn]

theorem advance_bounds (cs : List Char) :
    ∀ p : Position, 1 ≤ p.line → 0 ≤ p.column →
      1 ≤ (advance p cs).line ∧ 0 ≤ (advance p cs).column := by
  induction cs with
  | nil => intro p h1 h2; exact ⟨h1, h2⟩
  | cons c cs ih =>
    intro p h1 h2
    by_cases hc : c = '\n'
    · rw [advance, if_pos hc]
      exact ih _ (by simp; omega) (by simp)
    · rw [advance, if_neg hc]
      exact ih _ h1 (by simp; omega)

theorem Shape_keep (T : UnicodeTables) (hT : T.Separated) (t : Lexeme) (l1 : Lexer)
    (hs : Shape T t l1) :
    (t.lit.data.filter fun c => !isBlank T c) = t.lit.data := by
  rw [List.filter_eq_self]
  intro c hc
  have key : unicode.IsSpace T c = false ∧ c ≠ '\n' := by
    unfold Shape at hs
    split at hs
    · simp [hs.1] at hc
    · obtain ⟨d, hd, -, hn, -, hsp, -, -⟩ := hs
      simp [hd] at hc
      subst hc
      exact ⟨hsp, hn⟩
    · exact ⟨digit_not_space T hT (hs.2.1 c hc), (IsDigit_plain T (hs.2.1 c hc)).1⟩
    · exact ⟨letter_not_space T hT (hs.2.1 c hc), (IsLetter_plain T (hs.2.1 c hc)).1⟩
    · obtain ⟨d, hop, -, hd, -⟩ := hs
      simp [hd] at hc
      subst hc
      refine ⟨?_, ?_⟩
      · cases hsp : unicode.IsSpace T c with
        | false => rfl
        | true => rw [IsSpace_not_op T hsp] at hop; cases hop
      · intro e; subst e; exact Bool.false_ne_true hop
  simp [isBlank, key.1, key.2]

theorem scan_ends (T : UnicodeTables) :
    ∀ (n : Nat) (l : Lexer) (ts : List Lexeme), Lexer.scan T n l = Except.ok ts →
      ∃ init last, ts = init ++ [last] ∧ last.tok = Token.EOF ∧
        ∀ t ∈ init, t.tok ≠ Token.EOF := by
  intro n
  induction n with
  | zero => intro l ts h; simp [Lexer.scan] at h
  | succ n ih =>
    intro l ts h
    rw [Lexer.scan] at h
    cases hl : l.Lex T with
    | error e => simp [hl] at h
    | ok out =>
      obtain ⟨t, l1⟩ := out
      simp only [hl] at h
      by_cases he : t.tok = Token.EOF
      · simp only [he, if_true, Except.ok.injEq] at h
        subst h
        exact ⟨[], t, rfl, he, by simp⟩
      · simp only [he, if_false] at h
        cases hs : Lexer.scan T n l1 with
        | error e => simp [hs] at h
        | ok ts1 =>
          simp only [hs, Except.ok.injEq] at h
          subst h
          obtain ⟨init, last, rfl, h1, h2⟩ := ih l1 ts1 hs
          refine ⟨t :: init, last, rfl, h1, ?_⟩
          intro x hx
          rcases List.mem_cons.1 hx with rfl | hx
          · exact he
          · exact h2 x hx

/-! ## Lemmas: pushback and failing reads -/

theorem classLoop_last (p : Char → Bool) (n : Nat) (lit : String) (pos : Position)
    (src : List Item) (a b : Option Char) :
    classLoop p n lit ⟨pos, ⟨src, a⟩⟩ = classLoop p n lit ⟨pos, ⟨src, b⟩⟩ := by
  cases n with
  | zero => rfl
  | succ n =>
    cases src with
    | nil => simp [classLoop, Reader.ReadRune]
    | cons i rest => cases i <;> simp [classLoop, Reader.ReadRune]

theorem LexLoop_last (T : UnicodeTables) (n : Nat) (pos : Position) (src : List Item)
    (a b : Option Char) :
    Lexer.LexLoop T n ⟨pos, ⟨src, a⟩⟩ = Lexer.LexLoop T n ⟨pos, ⟨src, b⟩⟩ := by
  cases n with
  | zero => rfl
  | succ n =>
    cases src with
    | nil => simp [Lexer.LexLoop, Reader.ReadRune]
    | cons i rest => cases i <;> simp [Lexer.LexLoop, Reader.ReadRune]

theorem classLoop_fault_run (p : Char → Bool) (hp : p (Char.ofNat 0) = false) :
    ∀ (ds : List Char) (n : Nat) (lit : String) (pos : Position) (rest : List Item)
      (last : Option Char),
      (∀ c ∈ ds, p c = true) → ds.length < n →
      classLoop p n lit ⟨pos, ⟨runes ds ++ Item.fault :: rest, last⟩⟩
        = Except.error (Abort.panic Error.ErrInvalidUnreadRune) := by
  intro ds
  induction ds with
  | nil =>
    intro n lit pos rest last _ hn
    obtain ⟨m, rfl⟩ : ∃ m, n = m + 1 := ⟨n - 1, by simp at hn; omega⟩
    simp [runes, classLoop_fault p hp]
  | cons d ds ih =>
    intro n lit pos rest last hds hn
    obtain ⟨m, rfl⟩ : ∃ m, n = m + 1 := ⟨n - 1, by simp at hn; omega⟩
    have h1 : runes (d :: ds) ++ Item.fault :: rest
        = Item.rune d :: (runes ds ++ Item.fault :: rest) := by simp [runes]
    rw [h1, classLoop_true p m lit pos d _ last (hds d (by simp)),
      ih m _ _ rest (some d) (fun c hc => hds c (by simp [hc])) (by simp at hn; omega)]

theorem Lex_fault_blank (T : UnicodeTables) (l : Lexer) (ws : List Char) (rest : List Item)
    (hws : ∀ w ∈ ws, unicode.IsSpace T w = true ∨ w = '\n')
    (hsrc : l.reader.src = runes ws ++ Item.fault :: rest) :
    l.Lex T = Except.error (Abort.panic Error.fault) := by
  obtain ⟨pos, ⟨src, last⟩⟩ := l
  simp only at hsrc
  subst hsrc
  obtain ⟨last1, h1⟩ := LexLoop_skip T ws (rest.length + 1 + 1) pos
    (Item.fault :: rest) last (fun w hw => (hws w hw).symm)
  have e : (runes ws ++ Item.fault :: rest).length + 1 = (rest.length + 1 + 1) + ws.length := by
    simp [runes]; omega
  unfold Lexer.Lex
  simp only [e]
  rw [h1, LexLoop_fault]

theorem Lex_fault_digits (T : UnicodeTables) (l : Lexer) (ws : List Char) (d : Char)
    (ds : List Char) (rest : List Item)
    (hws : ∀ w ∈ ws, unicode.IsSpace T w = true ∨ w = '\n')
    (hs : unicode.IsSpace T d = false) (hds : ∀ c ∈ d :: ds, unicode.IsDigit T c = true)
    (hsrc : l.reader.src = runes (ws ++ d :: ds) ++ Item.fault :: rest) :
    l.Lex T = Except.error (Abort.panic Error.ErrInvalidUnreadRune) := by
  obtain ⟨pos, ⟨src, last⟩⟩ := l
  simp only at hsrc
  subst hsrc
  have e0 : runes (ws ++ d :: ds) ++ Item.fault :: rest
      = runes ws ++ Item.rune d :: (runes ds ++ Item.fault :: rest) := by simp [runes]
  obtain ⟨last1, h1⟩ := LexLoop_skip T ws ((runes ds ++ Item.fault :: rest).length + 1 + 1)
    pos (Item.rune d :: (runes ds ++ Item.fault :: rest)) last (fun w hw => (hws w hw).symm)
  have e : (runes ws ++ Item.rune d :: (runes ds ++ Item.fault :: rest)).length + 1
      = ((runes ds ++ Item.fault :: rest).length + 1 + 1) + ws.length := by
    simp [runes]; omega
  have e2 : Item.rune d :: (runes ds ++ Item.fault :: rest)
      = runes (d :: ds) ++ Item.fault :: rest := by simp [runes]
  unfold Lexer.Lex
  simp only [e0, e]
  rw [h1, LexLoop_digit T _ _ d _ last1 hs (hds d (by simp)), e2,
    classLoop_fault_run _ (IsDigit_zero T) (d :: ds) _ "" _ rest none hds
      (by simp [runes]; omega)]

theorem Lex_fault_letters (T : UnicodeTables) (l : Lexer) (ws : List Char) (d : Char)
    (ds : List Char) (rest : List Item)
    (hws : ∀ w ∈ ws, unicode.IsSpace T w = true ∨ w = '\n')
    (hs : unicode.IsSpace T d = false) (hd : unicode.IsDigit T d = false)
    (hds : ∀ c ∈ d :: ds, unicode.IsLetter T c = true)
    (hsrc : l.reader.src = runes (ws ++ d :: ds) ++ Item.fault :: rest) :
    l.Lex T = Except.error (Abort.panic Error.ErrInvalidUnreadRune) := by
  obtain ⟨pos, ⟨src, last⟩⟩ := l
  simp only at hsrc
  subst hsrc
  have e0 : runes (ws ++ d :: ds) ++ Item.fault :: rest
      = runes ws ++ Item.rune d :: (runes ds ++ Item.fault :: rest) := by simp [runes]
  obtain ⟨last1, h1⟩ := LexLoop_skip T ws ((runes ds ++ Item.fault :: rest).length + 1 + 1)
    pos (Item.rune d :: (runes ds ++ Item.fault :: rest)) last (fun w hw => (hws w hw).symm)
  have e : (runes ws ++ Item.rune d :: (runes ds ++ Item.fault :: rest)).length + 1
      = ((runes ds ++ Item.fault :: rest).length + 1 + 1) + ws.length := by
    simp [runes]; omega
  have e2 : Item.rune d :: (runes ds ++ Item.fault :: rest)
      = runes (d :: ds) ++ Item.fault :: rest := by simp [runes]
  unfold Lexer.Lex
  simp only [e0, e]
  rw [h1, LexLoop_letter T _ _ d _ last1 hs hd (hds d (by simp)), e2,
    classLoop_fault_run _ (IsLetter_zero T) (d :: ds) _ "" _ rest none hds
      (by simp [runes]; omega)]

/-! ## Lemmas: the record of pushbacks -/

theorem classLoopLog_eq (p : Char → Bool) (site : Site) :
    ∀ (n : Nat) (lit : String) (l : Lexer),
      classLoopLog p site n lit l
        = Except.map (fun out => (out, tailLog site out.2)) (classLoop p n lit l) := by
  intro n
  induction n with
  | zero => intro lit l; rfl
  | succ n ih =>
    intro lit l
    obtain ⟨pos, ⟨src, last⟩⟩ := l
    cases src with
    | nil => simp [classLoopLog, classLoop, Reader.ReadRune, Except.map, tailLog]
    | cons i rest =>
      cases i with
      | fault =>
        by_cases h0 : p (Char.ofNat 0) = true
        · simp [classLoopLog, classLoop, Reader.ReadRune, h0, ih]
        · simp [classLoopLog, classLoop, Reader.ReadRune, h0, Lexer.backup,
            Reader.UnreadRune, Except.map]
      | rune r =>
        by_cases hr : p r = true
        · simp [classLoopLog, classLoop, Reader.ReadRune, hr, ih]
        · simp [classLoopLog, classLoop, Reader.ReadRune, hr, Lexer.backup,
            Reader.UnreadRune, Except.map, tailLog]

theorem pushbacks_op (c : Char) (p : Position) (l1 : Lexer) :
    pushbacks ⟨p, opToken c, String.singleton c⟩ l1 = [] := by
  obtain ⟨-, -, h3, h4⟩ := opToken_ne c
  unfold pushbacks
  split
  · next h _ => exact absurd h h3
  · next h _ => exact absurd h h4
  · rfl

theorem LexLoopLog_eq (T : UnicodeTables) :
    ∀ (n : Nat) (l : Lexer),
      Lexer.LexLoopLog T n l
        = Except.map (fun out => (out, pushbacks out.1 out.2)) (Lexer.LexLoop T n l) := by
  intro n
  induction n with
  | zero => intro l; rfl
  | succ n ih =>
    intro l
    obtain ⟨pos, ⟨src, last⟩⟩ := l
    cases src with
    | nil => simp [Lexer.LexLoopLog, LexLoop_nil, Reader.ReadRune, Except.map, pushbacks]
    | cons i rest =>
      cases i with
      | fault => simp [Lexer.LexLoopLog, LexLoop_fault, Reader.ReadRune, Except.map]
      | rune r =>
        by_cases hn : r = '\n'
        · subst hn
          rw [LexLoop_newline, ← ih]
          simp [Lexer.LexLoopLog, Reader.ReadRune, Lexer.resetPosition]
        by_cases hop : isOp r = true
        · rw [LexLoop_op T n pos r rest last hop]
          simp [Lexer.LexLoopLog, Reader.ReadRune, hn, hop, Except.map, pushbacks_op]
        have hop : isOp r = false := by simpa using hop
        by_cases hs : unicode.IsSpace T r = true
        · rw [LexLoop_space T n pos r rest last hn hs, ← ih]
          simp [Lexer.LexLoopLog, Reader.ReadRune, hn, hop, hs]
        have hs : unicode.IsSpace T r = false := by simpa using hs
        by_cases hd : unicode.IsDigit T r = true
        · rw [LexLoop_digit T n pos r rest last hs hd]
          have hlog : Lexer.LexLoopLog T (n + 1) ⟨pos, ⟨Item.rune r :: rest, last⟩⟩
              = match classLoopLog (unicode.IsDigit T) Site.lexInt (rest.length + 2) ""
                  ⟨pos, ⟨Item.rune r :: rest, none⟩⟩ with
                | Except.error e => Except.error e
                | Except.ok ((lit, l3), log) =>
                  Except.ok ((⟨⟨pos.line, pos.column + 1⟩, Token.INT, lit⟩, l3),
                    (Site.Lex, r) :: log) := by
            simp [Lexer.LexLoopLog, Reader.ReadRune, hn, hop, hs, hd, Lexer.backup,
              Reader.UnreadRune]
          rw [hlog, classLoopLog_eq]
          cases hcl : classLoop (unicode.IsDigit T) (rest.length + 2) ""
              ⟨pos, ⟨Item.rune r :: rest, none⟩⟩ with
          | error e => simp [Except.map]
          | ok out =>
            obtain ⟨lit, l3⟩ := out
            obtain ⟨ds, g1, g2, g3, g4, g5, g6⟩ :=
              classLoop_sound _ (IsDigit_zero T) _ _ _ _ _ _ _ hcl
            cases ds with
            | nil =>
              simp [runes] at g3
              obtain ⟨c, hc1, hc2⟩ := g6 (Item.rune r) (by simp [← g3])
              simp at hc1; subst hc1; simp [hd] at hc2
            | cons d ds =>
              simp [runes] at g3
              obtain ⟨rfl, g3⟩ := g3
              simp at g2
              simp [Except.map, pushbacks, g2]
        have hd : unicode.IsDigit T r = false := by simpa using hd
        by_cases hl : unicode.IsLetter T r = true
        · rw [LexLoop_letter T n pos r rest last hs hd hl]
          have hlog : Lexer.LexLoopLog T (n + 1) ⟨pos, ⟨Item.rune r :: rest, last⟩⟩
              = match classLoopLog (unicode.IsLetter T) Site.lexIdent (rest.length + 2) ""
                  ⟨pos, ⟨Item.rune r :: rest, none⟩⟩ with
                | Except.error e => Except.error e
                | Except.ok ((lit, l3), log) =>
                  Except.ok ((⟨⟨pos.line, pos.column + 1⟩, Token.IDENT, lit⟩, l3),
                    (Site.Lex, r) :: log) := by
            simp [Lexer.LexLoopLog, Reader.ReadRune, hn, hop, hs, hd, hl, Lexer.backup,
              Reader.UnreadRune]
          rw [hlog, classLoopLog_eq]
          cases hcl : classLoop (unicode.IsLetter T) (rest.length + 2) ""
              ⟨pos, ⟨Item.rune r :: rest, none⟩⟩ with
          | error e => simp [Except.map]
          | ok out =>
            obtain ⟨lit, l3⟩ := out
            obtain ⟨ds, g1, g2, g3, g4, g5, g6⟩ :=
              classLoop_sound _ (IsLetter_zero T) _ _ _ _ _ _ _ hcl
            cases ds with
            | nil =>
              simp [runes] at g3
              obtain ⟨c, hc1, hc2⟩ := g6 (Item.rune r) (by simp [← g3])
              simp at hc1; subst hc1; simp [hl] at hc2
            | cons d ds =>
              simp [runes] at g3
              obtain ⟨rfl, g3⟩ := g3
              simp at g2
              simp [Except.map, pushbacks, g2]
        have hl : unicode.IsLetter T r = false := by simpa using hl
        rw [LexLoop_illegal T n pos r rest last hn hop hs hd hl]
        simp [Lexer.LexLoopLog, Reader.ReadRune, hn, hop, hs, hd, hl, Except.map, pushbacks]

theorem LexLog_erase (T : UnicodeTables) (l : Lexer) :
    Except.map Prod.fst (l.LexLog T) = l.Lex T := by
  unfold Lexer.LexLog Lexer.Lex
  rw [LexLoopLog_eq]
  cases Lexer.LexLoop T (l.reader.src.length + 1) l <;> rfl

theorem tailLog_mem (site s : Site) (c : Char) (l1 : Lexer) :
    (s, c) ∈ tailLog site l1 ↔ s = site ∧ l1.reader.src.head? = some (Item.rune c) := by
  unfold tailLog
  cases h : l1.reader.src.head? with
  | none => simp
  | some i =>
    cases i with
    | fault => simp
    | rune d =>
      simp only [List.mem_singleton, Prod.mk.injEq, Option.some.injEq, Item.rune.injEq]
      constructor
      · rintro ⟨rfl, rfl⟩; exact ⟨rfl, rfl⟩
      · rintro ⟨rfl, rfl⟩; exact ⟨rfl, rfl⟩

theorem LexLog_of_Lex (T : UnicodeTables) (l : Lexer) (t : Lexeme) (l1 : Lexer)
    (h : l.Lex T = Except.ok (t, l1)) :
    l.LexLog T = Except.ok ((t, l1), pushbacks t l1) := by
  unfold Lexer.LexLog
  unfold Lexer.Lex at h
  rw [LexLoopLog_eq, h]
  rfl

theorem Lex_same_line (T : UnicodeTables) (l : Lexer) (t : Lexeme) (l1 : Lexer)
    (h : l.Lex T = Except.ok (t, l1)) :
    l1.pos = ⟨t.pos.line, t.pos.column + (t.lit.data.drop 1).length⟩ := by
  obtain ⟨ws, -, -, a3, a4, a5, -⟩ := Lex_sound T l t l1 h
  have hsplit : ws ++ t.lit.data = (ws ++ t.lit.data.take 1) ++ t.lit.data.drop 1 := by
    rw [List.append_assoc, List.take_append_drop]
  rw [a4, hsplit, advance_append, ← a3]
  exact advance_plain _ _ fun c hc => a5 c (List.mem_of_mem_drop hc)

/-! ## Lemmas: the order of the tests -/

theorem find_first {α : Type} [DecidableEq α] (q : α → Bool) (a : α) :
    ∀ order : List α, a ∈ order → q a = true →
      (∀ k ∈ order, q k = true → k ≠ a → order.indexOf a < order.indexOf k) →
      order.find? q = some a := by
  intro order
  induction order with
  | nil => intro h; simp at h
  | cons x xs ih =>
    intro ha hq hk
    by_cases hx : q x = true
    · by_cases hxa : x = a
      · subst hxa; simp [hx]
      · have := hk x (by simp) hx hxa
        rw [List.indexOf_cons_self] at this
        exact absurd this (Nat.not_lt_zero _)
    · have hxa : x ≠ a := fun e => hx (e ▸ hq)
      rw [List.find?_cons_of_neg _ hx]
      apply ih
      · rcases List.mem_cons.1 ha with h | h
        · exact absurd h.symm hxa
        · exact h
      · exact hq
      · intro k hkm hqk hka
        have hxk : x ≠ k := fun e => hx (e ▸ hqk)
        have := hk k (by simp [hkm]) hqk hka
        rw [List.indexOf_cons_ne _ hxa, List.indexOf_cons_ne _ hxk] at this
        omega

theorem Category.test_two (T : UnicodeTables) (hT : T.Separated) (c : Char)
    (k1 k2 : Category) (hne : k1 ≠ k2) (h1 : k1.test T c = true) (h2 : k2.test T c = true) :
    c = '\n' ∧ ((k1 = Category.terminator ∧ k2 = Category.space) ∨
      (k1 = Category.space ∧ k2 = Category.terminator)) := by
  have f1 : c = '\n' → isOp c = false := by intro e; subst e; rfl
  have f2 : c = '\n' → unicode.IsDigit T c = false := by intro e; subst e; rfl
  have f3 : c = '\n' → unicode.IsLetter T c = false := by intro e; subst e; rfl
  have f4 : unicode.IsSpace T c = true → isOp c = false := IsSpace_not_op T
  have f5 : unicode.IsDigit T c = true → isOp c = false := fun h => (IsDigit_plain T h).2
  have f6 : unicode.IsLetter T c = true → isOp c = false := fun h => (IsLetter_plain T h).2
  have f7 : unicode.IsSpace T c = true →
      unicode.IsDigit T c = false ∧ unicode.IsLetter T c = false := Separated_space T hT
  have f8 : unicode.IsDigit T c = true → unicode.IsLetter T c = false := Separated_digit T hT
  cases k1 <;> cases k2 <;> simp only [Category.test, decide_eq_true_eq] at h1 h2 <;>
    first
    | exact absurd rfl hne
    | exact ⟨h1, Or.inl ⟨rfl, rfl⟩⟩
    | exact ⟨h2, Or.inr ⟨rfl, rfl⟩⟩
    | (rw [f1 h1] at h2; cases h2)
    | (rw [f2 h1] at h2; cases h2)
    | (rw [f3 h1] at h2; cases h2)
    | (rw [f1 h2] at h1; cases h1)
    | (rw [f2 h2] at h1; cases h1)
    | (rw [f3 h2] at h1; cases h1)
    | (rw [f4 h2] at h1; cases h1)
    | (rw [f5 h2] at h1; cases h1)
    | (rw [f6 h2] at h1; cases h1)
    | (rw [f4 h1] at h2; cases h2)
    | (rw [f5 h1] at h2; cases h2)
    | (rw [f6 h1] at h2; cases h2)
    | (rw [(f7 h1).1] at h2; cases h2)
    | (rw [(f7 h1).2] at h2; cases h2)
    | (rw [(f7 h2).1] at h1; cases h1)
    | (rw [(f7 h2).2] at h1; cases h1)
    | (rw [f8 h1] at h2; cases h2)
    | (rw [f8 h2] at h1; cases h1)

theorem Category.mem_sourceOrder (k : Category) : k ∈ sourceOrder := by
  cases k <;> simp [sourceOrder]

theorem classify_order (T : UnicodeTables) (hT : T.Separated) (order : List Category)
    (hall : ∀ k : Category, k ∈ order)
    (hlt : order.indexOf Category.terminator < order.indexOf Category.space) (c : Char) :
    classify T order c = classify T sourceOrder c := by
  have key : ∀ (o : List Category), (∀ k : Category, k ∈ o) →
      o.indexOf Category.terminator < o.indexOf Category.space →
      ∀ a : Category, a.test T c = true → (c = '\n' → a = Category.terminator) →
      classify T o c = some a := by
    intro o ho hlo a ha hterm
    apply find_first _ a o (ho a) ha
    intro k _ hk hka
    obtain ⟨hn, h⟩ := Category.test_two T hT c k a hka hk ha
    have e := hterm hn
    subst e
    rcases h with ⟨h, -⟩ | ⟨h, -⟩
    · exact absurd h hka
    · subst h; exact hlo
  have hsrc : sourceOrder.indexOf Category.terminator < sourceOrder.indexOf Category.space := by
    decide
  by_cases hn : c = '\n'
  · have ht : Category.terminator.test T c = true := by simp [Category.test, hn]
    rw [key order hall hlt _ ht (fun _ => rfl),
      key sourceOrder Category.mem_sourceOrder hsrc _ ht (fun _ => rfl)]
  · by_cases hex : ∃ a : Category, a.test T c = true
    · obtain ⟨a, ha⟩ := hex
      rw [key order hall hlt a ha (fun e => absurd e hn),
        key sourceOrder Category.mem_sourceOrder hsrc a ha (fun e => absurd e hn)]
    · have hnone : ∀ o : List Category, classify T o c = none := by
        intro o
        unfold classify
        rw [List.find?_eq_none]
        intro x _ hx
        exact hex ⟨x, hx⟩
      rw [hnone, hnone]

theorem LexLoopBy_congr (T : UnicodeTables) (o1 o2 : List Category)
    (h : ∀ c, classify T o1 c = classify T o2 c) :
    ∀ n l, Lexer.LexLoopBy T o1 n l = Lexer.LexLoopBy T o2 n l := by
  intro n
  induction n with
  | zero => intro l; rfl
  | succ n ih => intro l; simp only [Lexer.LexLoopBy, h, ih]

theorem LexLoopBy_source (T : UnicodeTables) :
    ∀ n l, Lexer.LexLoopBy T sourceOrder n l = Lexer.LexLoop T n l := by
  intro n
  induction n with
  | zero => intro l; rfl
  | succ n ih =>
    intro l
    obtain ⟨pos, ⟨src, last⟩⟩ := l
    cases src with
    | nil => simp [Lexer.LexLoopBy, LexLoop_nil, Reader.ReadRune]
    | cons i rest =>
      cases i with
      | fault => simp [Lexer.LexLoopBy, LexLoop_fault, Reader.ReadRune]
      | rune r =>
        by_cases hn : r = '\n'
        · subst hn
          rw [LexLoop_newline, ← ih]
          simp [Lexer.LexLoopBy, Reader.ReadRune, Lexer.resetPosition, classify, sourceOrder,
            Category.test]
        by_cases hop : isOp r = true
        · rw [LexLoop_op T n pos r rest last hop]
          simp [Lexer.LexLoopBy, Reader.ReadRune, classify, sourceOrder, Category.test, hn, hop]
        have hop : isOp r = false := by simpa using hop
        by_cases hs : unicode.IsSpace T r = true
        · rw [LexLoop_space T n pos r rest last hn hs, ← ih]
          simp [Lexer.LexLoopBy, Reader.ReadRune, classify, sourceOrder, Category.test, hn, hop,
            hs]
        have hs : unicode.IsSpace T r = false := by simpa using hs
        by_cases hd : unicode.IsDigit T r = true
        · rw [LexLoop_digit T n pos r rest last hs hd]
          simp [Lexer.LexLoopBy, Reader.ReadRune, classify, sourceOrder, Category.test, hn, hop,
            hs, hd, Lexer.backup, Reader.UnreadRune, Lexer.lexInt, lexIntLoop_eq]
        have hd : unicode.IsDigit T r = false := by simpa using hd
        by_cases hl : unicode.IsLetter T r = true
        · rw [LexLoop_letter T n pos r rest last hs hd hl]
          simp [Lexer.LexLoopBy, Reader.ReadRune, classify, sourceOrder, Category.test, hn, hop,
            hs, hd, hl, Lexer.backup, Reader.UnreadRune, Lexer.lexIdent, lexIdentLoop_eq]
        have hl : unicode.IsLetter T r = false := by simpa using hl
        rw [LexLoop_illegal T n pos r rest last hn hop hs hd hl]
        simp [Lexer.LexLoopBy, Reader.ReadRune, classify, sourceOrder, Category.test, hn, hop,
          hs, hd, hl]

/-! ## Lemmas: the range of the counters -/

theorem advance_le (cs : List Char) :
    ∀ p : Position, 0 ≤ p.column →
      (advance p cs).line ≤ p.line + cs.length ∧
        (advance p cs).column ≤ p.column + cs.length := by
  induction cs with
  | nil => intro p _; simp [advance]
  | cons c cs ih =>
    intro p hp
    by_cases hc : c = '\n'
    · rw [advance, if_pos hc]
      obtain ⟨h1, h2⟩ := ih ⟨p.line + 1, 0⟩ (le_refl _)
      simp only at h1 h2
      simp only [List.length_cons, Nat.cast_add, Nat.cast_one]
      constructor <;> omega
    · rw [advance, if_neg hc]
      obtain ⟨h1, h2⟩ := ih ⟨p.line, p.column + 1⟩ (by simp; omega)
      simp only at h1 h2
      simp only [List.length_cons, Nat.cast_add, Nat.cast_one]
      constructor <;> omega

theorem after_range (T : UnicodeTables) (input : List Char) (k : Nat) (l : Lexer)
    (hk : Lexer.after T k (NewLexer (runes input)) = Except.ok l) :
    1 ≤ l.pos.line ∧ 0 ≤ l.pos.column ∧
      l.pos.line + l.reader.src.length ≤ 1 + input.length ∧
      l.pos.column + l.reader.src.length ≤ input.length := by
  obtain ⟨pre, rest, e1, e2, e3⟩ := after_inv T k _ l input rfl hk
  have hb := advance_bounds pre (NewLexer (runes input)).pos (by simp [NewLexer])
    (by simp [NewLexer])
  have hl := advance_le pre (NewLexer (runes input)).pos (by simp [NewLexer])
  rw [← e3] at hb hl
  have h1 : (input.length : Int) = pre.length + rest.length := by rw [e1]; simp
  have h2 : (l.reader.src.length : Int) = rest.length := by rw [e2]; simp [runes]
  simp only [NewLexer] at hl
  refine ⟨hb.1, hb.2, ?_, ?_⟩
  · rw [h1, h2]; omega
  · rw [h1, h2]; omega

theorem Lex_range (T : UnicodeTables) (l : Lexer) (t : Lexeme) (l1 : Lexer)
    (h : l.Lex T = Except.ok (t, l1)) (hline : 1 ≤ l.pos.line) (hcol : 0 ≤ l.pos.column) :
    1 ≤ t.pos.line ∧ 0 ≤ t.pos.column ∧
      t.pos.line + l1.reader.src.length ≤ l.pos.line + l.reader.src.length ∧
      t.pos.column + l1.reader.src.length ≤ l.pos.column + l.reader.src.length := by
  obtain ⟨ws, -, h2, h3, -, -, -⟩ := Lex_sound T l t l1 h
  have hb := advance_bounds (ws ++ t.lit.data.take 1) l.pos hline hcol
  have hl := advance_le (ws ++ t.lit.data.take 1) l.pos hcol
  rw [← h3] at hb hl
  have e1 : (l.reader.src.length : Int)
      = ws.length + t.lit.data.length + l1.reader.src.length := by
    have hlen1 : t.lit.length = t.lit.data.length := rfl
    rw [h2]; simp [runes]; omega
  have e2 : ((ws ++ t.lit.data.take 1).length : Int) ≤ ws.length + t.lit.data.length := by
    have : (t.lit.data.take 1).length ≤ t.lit.data.length := List.length_take_le' _ _
    simp only [List.length_append, Nat.cast_add]
    omega
  refine ⟨hb.1, hb.2, ?_, ?_⟩
  · rw [e1]; omega
  · rw [e1]; omega

theorem after_snoc (T : UnicodeTables) :
    ∀ (k : Nat) (l0 l : Lexer) (t : Lexeme) (l1 : Lexer),
      Lexer.after T k l0 = Except.ok l → l.Lex T = Except.ok (t, l1) →
      Lexer.after T (k + 1) l0 = Except.ok l1 := by
  intro k
  induction k with
  | zero =>
    intro l0 l t l1 hk h
    simp only [Lexer.after, Except.ok.injEq] at hk
    subst hk
    simp [Lexer.after, h]
  | succ k ih =>
    intro l0 l t l1 hk h
    rw [Lexer.after] at hk ⊢
    cases hl : l0.Lex T with
    | error e => simp [hl] at hk
    | ok out =>
      obtain ⟨t0, l01⟩ := out
      simp only [hl] at hk ⊢
      exact ih l01 l t l1 hk h

theorem token_range (T : UnicodeTables) (input : List Char) (k : Nat) (l : Lexer)
    (t : Lexeme) (l1 : Lexer)
    (hk : Lexer.after T k (NewLexer (runes input)) = Except.ok l)
    (ht : l.Lex T = Except.ok (t, l1)) :
    1 ≤ t.pos.line ∧ t.pos.line ≤ 1 + input.length ∧
      0 ≤ t.pos.column ∧ t.pos.column ≤ input.length := by
  obtain ⟨a1, a2, a3, a4⟩ := after_range T input k l hk
  obtain ⟨b1, b2, b3, b4⟩ := Lex_range T l t l1 ht a1 a2
  have : (0 : Int) ≤ (l1.reader.src.length : Int) := Int.natCast_nonneg _
  refine ⟨b1, ?_, b2, ?_⟩ <;> omega

/-! ## The claims -/

/-- C1: when the unread input is `ds ++ rest`, where `ds` is a non-empty run of decimal
digits and `rest` is empty or begins with a non-digit, `Lex` returns kind `INT` with text
exactly `ds` and leaves exactly `rest` unread; the input `12a` yields `INT 12`, `IDENT a`,
`EOF`.  The classifier tables above Latin-1 are assumed to keep the classes apart. -/
theorem C1_int_is_whole_digit_run (T : UnicodeTables) (hT : T.Separated) (l : Lexer)
    (ds rest : List Char) (hne : ds ≠ [])
    (hds : ∀ c ∈ ds, unicode.IsDigit T c = true)
    (hrest : ∀ c ∈ rest.head?, unicode.IsDigit T c = false)
    (hsrc : l.reader.src = runes (ds ++ rest)) :
    (∃ p l1, l.Lex T = Except.ok (⟨p, Token.INT, ⟨ds⟩⟩, l1) ∧ l1.reader.src = runes rest) ∧
    (Lexer.lexAll T (NewLexer (runes ['1', '2', 'a']))).map kinds
      = Except.ok [(Token.INT, "12"), (Token.IDENT, "a"), (Token.EOF, "")] := by
  refine ⟨?_, rfl⟩
  cases ds with
  | nil => exact absurd rfl hne
  | cons d ds =>
    exact ⟨_, _, Lex_digit_run T l d ds rest (digit_not_space T hT (hds d (by simp))) hds
      hrest hsrc, rfl⟩

theorem C1_int_is_whole_digit_run_witness :
    (∃ p l1, (NewLexer (runes ['4', '2', ';'])).Lex UnicodeTables.latin1
        = Except.ok (⟨p, Token.INT, ⟨['4', '2']⟩⟩, l1) ∧ l1.reader.src = runes [';']) ∧
    (Lexer.lexAll UnicodeTables.latin1 (NewLexer (runes ['1', '2', 'a']))).map kinds
      = Except.ok [(Token.INT, "12"), (Token.IDENT, "a"), (Token.EOF, "")] :=
  C1_int_is_whole_digit_run UnicodeTables.latin1 Separated_latin1
    (NewLexer (runes ['4', '2', ';'])) ['4', '2'] [';'] (by simp) (by decide) (by decide) rfl

/-- C2: when the unread input is `ls ++ rest`, where `ls` is a non-empty run of alphabetic
characters and `rest` is empty or begins with a non-alphabetic character, `Lex` returns
kind `IDENT` with text exactly `ls` and leaves exactly `rest` unread.  The classifier
tables above Latin-1 are assumed to keep the classes apart. -/
theorem C2_ident_is_whole_letter_run (T : UnicodeTables) (hT : T.Separated) (l : Lexer)
    (ls rest : List Char) (hne : ls ≠ [])
    (hls : ∀ c ∈ ls, unicode.IsLetter T c = true)
    (hrest : ∀ c ∈ rest.head?, unicode.IsLetter T c = false)
    (hsrc : l.reader.src = runes (ls ++ rest)) :
    ∃ p l1, l.Lex T = Except.ok (⟨p, Token.IDENT, ⟨ls⟩⟩, l1) ∧ l1.reader.src = runes rest := by
  cases ls with
  | nil => exact absurd rfl hne
  | cons d ds =>
    have hd := hls d (by simp)
    exact ⟨_, _, Lex_letter_run T l d ds rest (letter_not_space T hT hd)
      (letter_not_digit T hT hd) hls hrest hsrc, rfl⟩

theorem C2_ident_is_whole_letter_run_witness :
    ∃ p l1, (NewLexer (runes ['a', 'b', '1'])).Lex UnicodeTables.latin1
      = Except.ok (⟨p, Token.IDENT, ⟨['a', 'b']⟩⟩, l1) ∧ l1.reader.src = runes ['1'] :=
  C2_ident_is_whole_letter_run UnicodeTables.latin1 Separated_latin1
    (NewLexer (runes ['a', 'b', '1'])) ['a', 'b'] ['1'] (by simp) (by decide) (by decide) rfl

/-- C3: for the token returned by any `Lex` call on any input shorter than `MaxInt32`
runes (so that no counter leaves the range of Go's `int`), the input splits as
`pre ++ text ++ post` with `post` the unread input after the call, the line of the token
is 1 plus the number of newlines in `pre`, and its column is the number of characters
after the last newline of `pre` up to and including the first character of the text
(one more than the characters before it on its line, for every token other than `EOF`).
The counters of the token and of the lexer stay between 0 and `MaxInt32`, whatever is
still read.  On `ab\ncd` the tokens are `IDENT ab` at line 1 column 1 and `IDENT cd` at
line 2 column 1. -/
theorem C3_token_position (T : UnicodeTables) (input : List Char)
    (hlen : (input.length : Int) < MaxInt32) (k : Nat) (l : Lexer)
    (t : Lexeme) (l1 : Lexer)
    (hk : Lexer.after T k (NewLexer (runes input)) = Except.ok l)
    (ht : l.Lex T = Except.ok (t, l1)) :
    (∃ pre post, input = pre ++ t.lit.data ++ post ∧ l1.reader.src = runes post ∧
      t.pos.line = 1 + pre.count '\n' ∧
      t.pos.column = lineTail (pre ++ t.lit.data.take 1) ∧
      (t.tok ≠ Token.EOF → t.pos.column = lineTail pre + 1)) ∧
    (1 ≤ t.pos.line ∧ t.pos.line ≤ MaxInt32 ∧ 0 ≤ t.pos.column ∧ t.pos.column ≤ MaxInt32 ∧
      l.pos.line + l.reader.src.length ≤ MaxInt32 ∧
      l.pos.column + l.reader.src.length ≤ MaxInt32) ∧
    Lexer.lexAll T (NewLexer (runes ['a', 'b', '\n', 'c', 'd']))
      = Except.ok [⟨⟨1, 1⟩, Token.IDENT, "ab"⟩, ⟨⟨2, 1⟩, Token.IDENT, "cd"⟩,
          ⟨⟨2, 2⟩, Token.EOF, ""⟩] := by
  refine ⟨?_, ?_, rfl⟩
  swap
  · obtain ⟨a1, a2, a3, a4⟩ := token_range T input k l t l1 hk ht
    obtain ⟨b1, b2, b3, b4⟩ := after_range T input k l hk
    refine ⟨a1, ?_, a3, ?_, ?_, ?_⟩ <;> omega
  obtain ⟨pre, rest, e1, e2, e3⟩ := after_inv T k _ l input rfl hk
  obtain ⟨ws, -, h2, h3, -, h5, h6⟩ := Lex_sound T l t l1 ht
  rw [e2] at h2
  obtain ⟨post, hpost, rfl⟩ := runes_split _ _ _ h2.symm
  have hpos : t.pos = advance ⟨1, 0⟩ ((pre ++ ws) ++ t.lit.data.take 1) := by
    rw [h3, e3]
    simp [advance_append, NewLexer]
  have hnl : ∀ c ∈ t.lit.data.take 1, c ≠ '\n' := fun c hc => h5 c (List.mem_of_mem_take hc)
  have hcount : (t.lit.data.take 1).count '\n' = 0 :=
    List.count_eq_zero.2 fun hc => hnl _ hc rfl
  have hcol : t.pos.column = lineTail ((pre ++ ws) ++ t.lit.data.take 1) := by
    rw [hpos, advance_eq]
    by_cases hm : '\n' ∈ (pre ++ ws) ++ t.lit.data.take 1
    · simp only [hm, if_true]
    · simp only [hm, if_false]; simp
  refine ⟨pre ++ ws, post, by simp [e1], hpost, ?_, hcol, ?_⟩
  · rw [hpos, advance_eq]
    simp only [List.count_append, hcount]
    simp
  · intro hne
    have hlit := Shape_nonempty T t l1 h6 hne
    cases hd : t.lit.data with
    | nil => exact absurd hd hlit
    | cons c cs =>
      have hc : c ≠ '\n' := h5 c (by simp [hd])
      have e : (pre ++ ws) ++ (c :: cs).take 1 = (pre ++ ws) ++ [c] := by simp
      rw [hcol, hd, e, lineTail_snoc, if_neg hc]
      simp

theorem C3_token_position_witness :
    (∃ pre post, ['a', 'b', '\n', 'c', 'd']
        = pre ++ (Lexeme.mk ⟨2, 1⟩ Token.IDENT "cd").lit.data ++ post ∧
      (Lexer.mk ⟨2, 2⟩ ⟨[], none⟩).reader.src = runes post ∧
      (Lexeme.mk ⟨2, 1⟩ Token.IDENT "cd").pos.line = 1 + pre.count '\n' ∧
      (Lexeme.mk ⟨2, 1⟩ Token.IDENT "cd").pos.column
        = lineTail (pre ++ (Lexeme.mk ⟨2, 1⟩ Token.IDENT "cd").lit.data.take 1) ∧
      ((Lexeme.mk ⟨2, 1⟩ Token.IDENT "cd").tok ≠ Token.EOF →
        (Lexeme.mk ⟨2, 1⟩ Token.IDENT "cd").pos.column = lineTail pre + 1)) ∧
    (1 ≤ (Lexeme.mk ⟨2, 1⟩ Token.IDENT "cd").pos.line ∧
      (Lexeme.mk ⟨2, 1⟩ Token.IDENT "cd").pos.line ≤ MaxInt32 ∧
      0 ≤ (Lexeme.mk ⟨2, 1⟩ Token.IDENT "cd").pos.column ∧
      (Lexeme.mk ⟨2, 1⟩ Token.IDENT "cd").pos.column ≤ MaxInt32 ∧
      (Lexer.mk ⟨1, 2⟩ ⟨runes ['\n', 'c', 'd'], none⟩).pos.line
        + (Lexer.mk ⟨1, 2⟩ ⟨runes ['\n', 'c', 'd'], none⟩).reader.src.length ≤ MaxInt32 ∧
      (Lexer.mk ⟨1, 2⟩ ⟨runes ['\n', 'c', 'd'], none⟩).pos.column
        + (Lexer.mk ⟨1, 2⟩ ⟨runes ['\n', 'c', 'd'], none⟩).reader.src.length ≤ MaxInt32) ∧
    Lexer.lexAll UnicodeTables.latin1 (NewLexer (runes ['a', 'b', '\n', 'c', 'd']))
      = Except.ok [⟨⟨1, 1⟩, Token.IDENT, "ab"⟩, ⟨⟨2, 1⟩, Token.IDENT, "cd"⟩,
          ⟨⟨2, 2⟩, Token.EOF, ""⟩] :=
  C3_token_position UnicodeTables.latin1 ['a', 'b', '\n', 'c', 'd'] (by decide) 1
    ⟨⟨1, 2⟩, ⟨runes ['\n', 'c', 'd'], none⟩⟩ ⟨⟨2, 1⟩, Token.IDENT, "cd"⟩
    ⟨⟨2, 2⟩, ⟨[], none⟩⟩ rfl rfl

/-- C4: a `Lex` call that returns a token other than `EOF` with text `t` consumes exactly
`ws ++ t`, where `ws` consists of whitespace characters and newlines and `t` is not
empty: the unread input after the call is what followed the lexeme. -/
theorem C4_cursor_after_lexeme (T : UnicodeTables) (l : Lexer) (t : Lexeme) (l1 : Lexer)
    (h : l.Lex T = Except.ok (t, l1)) (hne : t.tok ≠ Token.EOF) :
    ∃ ws : List Char, (∀ c ∈ ws, unicode.IsSpace T c = true ∨ c = '\n') ∧
      t.lit.data ≠ [] ∧
      l.reader.src = runes (ws ++ t.lit.data) ++ l1.reader.src := by
  obtain ⟨ws, h1, h2, -, -, -, h6⟩ := Lex_sound T l t l1 h
  exact ⟨ws, fun c hc => (h1 c hc).symm, Shape_nonempty T t l1 h6 hne, h2⟩

theorem C4_cursor_after_lexeme_witness :
    ∃ ws : List Char, (∀ c ∈ ws, unicode.IsSpace UnicodeTables.latin1 c = true ∨ c = '\n') ∧
      (Lexeme.mk ⟨2, 2⟩ Token.INT "12").lit.data ≠ [] ∧
      (NewLexer (runes [' ', '\n', ' ', '1', '2', '+'])).reader.src
        = runes (ws ++ (Lexeme.mk ⟨2, 2⟩ Token.INT "12").lit.data)
          ++ (Lexer.mk ⟨2, 3⟩ ⟨runes ['+'], none⟩).reader.src :=
  C4_cursor_after_lexeme UnicodeTables.latin1 (NewLexer (runes [' ', '\n', ' ', '1', '2', '+']))
    ⟨⟨2, 2⟩, Token.INT, "12"⟩ ⟨⟨2, 3⟩, ⟨runes ['+'], none⟩⟩ rfl (by decide)

/-- C5: on an input made only of the characters `;`, `+`, `-`, `*`, `/`, `=`, whitespace
and newlines, repeated `Lex` calls up to the first `EOF` succeed, and the concatenation of
the texts of the tokens they return is the input with whitespace and newlines removed. -/
theorem C5_operator_texts_concat (T : UnicodeTables) (input : List Char)
    (h : ∀ c ∈ input, isOp c = true ∨ unicode.IsSpace T c = true ∨ c = '\n') :
    ∃ ts, Lexer.lexAll T (NewLexer (runes input)) = Except.ok ts ∧
      String.join (ts.map Lexeme.lit)
        = ⟨input.filter fun c => !(unicode.IsSpace T c || decide (c = '\n'))⟩ := by
  obtain ⟨ts, g1, -, g3, g4⟩ := scan_spec T (input.length + 1) (NewLexer (runes input)) input
    rfl (Nat.lt_succ_self _)
  have g1 : Lexer.lexAll T (NewLexer (runes input)) = Except.ok ts := by
    rw [← g1]; simp [Lexer.lexAll, NewLexer, runes]
  refine ⟨ts, g1, ?_⟩
  have hkeep : ∀ t ∈ ts, (t.lit.data.filter fun c => !isBlank T c) = t.lit.data := by
    intro t ht
    obtain ⟨⟨l1, hs⟩, hin⟩ := g4 t ht
    unfold Shape at hs
    split at hs
    · simp [hs.1]
    · obtain ⟨c, hc, -, hn, hop, hsp, -, -⟩ := hs
      rcases h c (hin c (by simp [hc])) with h | h | h
      · rw [hop] at h; cases h
      · rw [hsp] at h; cases h
      · exact absurd h hn
    · obtain ⟨hne, hd, hsp, -, -⟩ := hs
      cases hdat : t.lit.data with
      | nil => exact absurd hdat hne
      | cons c cs =>
        have hc : unicode.IsDigit T c = true := hd c (by simp [hdat])
        have hsc : unicode.IsSpace T c = false := hsp c (by simp [hdat])
        rcases h c (hin c (by simp [hdat])) with h | h | h
        · rw [(IsDigit_plain T hc).2] at h; cases h
        · rw [hsc] at h; cases h
        · exact absurd h (IsDigit_plain T hc).1
    · obtain ⟨hne, hd, hsp, -, -⟩ := hs
      cases hdat : t.lit.data with
      | nil => exact absurd hdat hne
      | cons c cs =>
        have hc : unicode.IsLetter T c = true := hd c (by simp [hdat])
        have hsc : unicode.IsSpace T c = false := (hsp c (by simp [hdat])).1
        rcases h c (hin c (by simp [hdat])) with h | h | h
        · rw [(IsLetter_plain T hc).2] at h; cases h
        · rw [hsc] at h; cases h
        · exact absurd h (IsLetter_plain T hc).1
    · obtain ⟨c, hop, -, hc, -⟩ := hs
      have hsp : unicode.IsSpace T c = false := by
        cases hsp : unicode.IsSpace T c with
        | false => rfl
        | true => rw [IsSpace_not_op T hsp] at hop; cases hop
      have hn : c ≠ '\n' := by
        intro e; subst e; exact Bool.false_ne_true hop
      simp [hc, isBlank, hsp, hn]
  apply String.ext
  rw [String.data_join, List.map_map]
  have e : (fun c => !(unicode.IsSpace T c || decide (c = '\n'))) = fun c => !isBlank T c := by
    funext c; rfl
  show _ = input.filter _
  rw [e, g3]
  congr 1
  apply List.map_congr_left
  intro t ht
  exact (hkeep t ht).symm

theorem C5_operator_texts_concat_witness :
    ∃ ts, Lexer.lexAll UnicodeTables.latin1 (NewLexer (runes [';', ' ', '+', '\n', '=']))
        = Except.ok ts ∧
      String.join (ts.map Lexeme.lit)
        = ⟨[';', ' ', '+', '\n', '='].filter fun c =>
            !(unicode.IsSpace UnicodeTables.latin1 c || decide (c = '\n'))⟩ :=
  C5_operator_texts_concat UnicodeTables.latin1 [';', ' ', '+', '\n', '='] (by decide)

/-- C6 as stated fails: `Lex` and `bufio` keep no end-of-input state, so when the source
delivers `b` after it has reported end of input, the call after an `EOF` token returns
`IDENT b`. -/
theorem C6_token_after_eof :
    (NewLexer (runes ['a'])).Lex UnicodeTables.latin1
      = Except.ok (⟨⟨1, 1⟩, Token.IDENT, "a"⟩, ⟨⟨1, 1⟩, ⟨[], none⟩⟩) ∧
    (Lexer.mk ⟨1, 1⟩ ⟨[], none⟩).Lex UnicodeTables.latin1
      = Except.ok (⟨⟨1, 1⟩, Token.EOF, ""⟩, ⟨⟨1, 1⟩, ⟨[], none⟩⟩) ∧
    ((Lexer.mk ⟨1, 1⟩ ⟨[], none⟩).feed (runes ['b'])).Lex UnicodeTables.latin1
      = Except.ok (⟨⟨1, 2⟩, Token.IDENT, "b"⟩, ⟨⟨1, 2⟩, ⟨[], none⟩⟩) :=
  ⟨rfl, rfl, rfl⟩

/-- C6, amended: once a `Lex` call has returned `EOF`, every later call on the lexer
(after any number `k` of further calls) returns `EOF` with empty text and the same
position and leaves the lexer state unchanged, as long as the source delivers nothing
more; when the source delivers `more` after that `EOF`, the next call returns what `Lex`
returns on `more` from the position of the `EOF` token. -/
theorem C6_eof_repeats (T : UnicodeTables) (l : Lexer) (t : Lexeme) (l1 : Lexer)
    (h : l.Lex T = Except.ok (t, l1)) (he : t.tok = Token.EOF) (k : Nat) :
    l1.feed [] = l1 ∧
    Lexer.after T k l1 = Except.ok l1 ∧
    l1.Lex T = Except.ok (⟨t.pos, Token.EOF, ""⟩, l1) ∧
    ∀ more : List Item, (l1.feed more).Lex T = Lexer.Lex T ⟨t.pos, ⟨more, none⟩⟩ := by
  obtain ⟨ws, -, -, h3, h4, -, h6⟩ := Lex_sound T l t l1 h
  simp only [Shape, he] at h6
  have hlit : t.lit.data = [] := by rw [h6.1]
  have hpos : t.pos = l1.pos := by rw [h3, h4, hlit]; rfl
  have hlex : l1.Lex T = Except.ok (⟨t.pos, Token.EOF, ""⟩, l1) := by
    obtain ⟨pos, rd⟩ := l1
    simp only at h6 hpos
    rw [h6.2, hpos]
    exact LexLoop_nil T 0 pos none
  refine ⟨?_, ?_, hlex, ?_⟩
  · obtain ⟨pos, ⟨src, last⟩⟩ := l1
    simp [Lexer.feed]
  · induction k with
    | zero => rfl
    | succ k ih => rw [Lexer.after, hlex]; exact ih
  · intro more
    obtain ⟨pos, rd⟩ := l1
    simp only at h6 hpos
    rw [h6.2, hpos]
    rfl

theorem C6_eof_repeats_witness :
    (Lexer.mk ⟨1, 2⟩ ⟨[], none⟩).feed [] = Lexer.mk ⟨1, 2⟩ ⟨[], none⟩ ∧
    Lexer.after UnicodeTables.latin1 3 (Lexer.mk ⟨1, 2⟩ ⟨[], none⟩)
      = Except.ok (Lexer.mk ⟨1, 2⟩ ⟨[], none⟩) ∧
    (Lexer.mk ⟨1, 2⟩ ⟨[], none⟩).Lex UnicodeTables.latin1
      = Except.ok (⟨(Lexeme.mk ⟨1, 2⟩ Token.EOF "").pos, Token.EOF, ""⟩,
          Lexer.mk ⟨1, 2⟩ ⟨[], none⟩) ∧
    ∀ more : List Item, ((Lexer.mk ⟨1, 2⟩ ⟨[], none⟩).feed more).Lex UnicodeTables.latin1
      = Lexer.Lex UnicodeTables.latin1 ⟨(Lexeme.mk ⟨1, 2⟩ Token.EOF "").pos, ⟨more, none⟩⟩ :=
  C6_eof_repeats UnicodeTables.latin1 (Lexer.mk ⟨1, 1⟩ ⟨runes [' '], some 'a'⟩)
    ⟨⟨1, 2⟩, Token.EOF, ""⟩ ⟨⟨1, 2⟩, ⟨[], none⟩⟩ rfl rfl 3

/-- C7: when the source never fails other than by reaching its end, no `Lex` call ends
in a panic: after any number `k` of calls the next call returns a token.  A `backup`
succeeds exactly when the reader's last operation was a successful read, so a returned
token means that no pushback failed. -/
theorem C7_no_abnormal_termination (T : UnicodeTables) (l : Lexer)
    (h : ∀ i ∈ l.reader.src, i ≠ Item.fault) (k : Nat) :
    (∃ lk t l1, Lexer.after T k l = Except.ok lk ∧ lk.Lex T = Except.ok (t, l1)) ∧
      ∀ l0 : Lexer, (∃ l2, l0.backup = Except.ok l2) ↔ l0.reader.last ≠ none := by
  constructor
  · obtain ⟨lk, g1, g2⟩ := after_total T k l h
    obtain ⟨⟨t, l1⟩, hl⟩ := Lex_total T lk g2
    exact ⟨lk, t, l1, g1, hl⟩
  · intro l0
    cases hlast : l0.reader.last with
    | none => simp [Lexer.backup, Reader.UnreadRune, hlast]
    | some r => simp [Lexer.backup, Reader.UnreadRune, hlast]

theorem C7_no_abnormal_termination_witness :
    (∃ lk t l1, Lexer.after UnicodeTables.latin1 2 (NewLexer (runes ['7', '\n', '#', 'x']))
        = Except.ok lk ∧ lk.Lex UnicodeTables.latin1 = Except.ok (t, l1)) ∧
      ∀ l0 : Lexer, (∃ l2, l0.backup = Except.ok l2) ↔ l0.reader.last ≠ none :=
  C7_no_abnormal_termination UnicodeTables.latin1 (NewLexer (runes ['7', '\n', '#', 'x']))
    (by decide) 2

/-- C8: when the first character of the unread input that is neither whitespace nor a
newline is a character `c` that is no operator character, no digit and no letter, `Lex`
returns kind `ILLEGAL` with the one-character text `c` and leaves unread exactly what
follows `c`; the input `a#b` yields `IDENT a`, `ILLEGAL #`, `IDENT b`, `EOF`. -/
theorem C8_illegal_is_one_char (T : UnicodeTables) (l : Lexer) (ws : List Char) (c : Char)
    (rest : List Char)
    (hws : ∀ w ∈ ws, unicode.IsSpace T w = true ∨ w = '\n')
    (hn : c ≠ '\n') (hs : unicode.IsSpace T c = false) (hop : isOp c = false)
    (hd : unicode.IsDigit T c = false) (hl : unicode.IsLetter T c = false)
    (hsrc : l.reader.src = runes (ws ++ c :: rest)) :
    (∃ p l1, l.Lex T = Except.ok (⟨p, Token.ILLEGAL, String.singleton c⟩, l1) ∧
      l1.reader.src = runes rest) ∧
    (Lexer.lexAll T (NewLexer (runes ['a', '#', 'b']))).map kinds
      = Except.ok [(Token.IDENT, "a"), (Token.ILLEGAL, "#"), (Token.IDENT, "b"),
          (Token.EOF, "")] := by
  refine ⟨?_, rfl⟩
  obtain ⟨pos, ⟨src, last⟩⟩ := l
  simp only at hsrc
  subst hsrc
  have e : runes (ws ++ c :: rest) = runes ws ++ Item.rune c :: runes rest := by
    simp [runes]
  have e2 : (runes (ws ++ c :: rest)).length + 1 = (rest.length + 1 + 1) + ws.length := by
    simp [runes]; omega
  obtain ⟨last1, h1⟩ := LexLoop_skip T ws (rest.length + 1 + 1) pos
    (Item.rune c :: runes rest) last (fun w hw => (hws w hw).symm)
  refine ⟨⟨(advance pos ws).line, (advance pos ws).column + 1⟩,
    ⟨⟨(advance pos ws).line, (advance pos ws).column + 1⟩, ⟨runes rest, some c⟩⟩, ?_, rfl⟩
  unfold Lexer.Lex
  simp only [e2]
  rw [e, h1, LexLoop_illegal T _ _ c _ last1 hn hop hs hd hl]

theorem C8_illegal_is_one_char_witness :
    (∃ p l1, (NewLexer (runes [' ', '\n', '#', 'b'])).Lex UnicodeTables.latin1
        = Except.ok (⟨p, Token.ILLEGAL, String.singleton '#'⟩, l1) ∧
      l1.reader.src = runes ['b']) ∧
    (Lexer.lexAll UnicodeTables.latin1 (NewLexer (runes ['a', '#', 'b']))).map kinds
      = Except.ok [(Token.IDENT, "a"), (Token.ILLEGAL, "#"), (Token.IDENT, "b"),
          (Token.EOF, "")] :=
  C8_illegal_is_one_char UnicodeTables.latin1 (NewLexer (runes [' ', '\n', '#', 'b']))
    [' ', '\n'] '#' ['b'] (by decide) (by decide) rfl rfl rfl rfl rfl

/-- C9: on an input shorter than `MaxInt32` runes (so that no counter leaves the range
of Go's `int`), the positions of the tokens of two successive `Lex` calls do not
decrease: the line of the later token is not smaller, and when both are on the same line
the column of the later token is not smaller, and strictly larger when the later token is
not `EOF`.  The counters of both tokens stay between 0 and `MaxInt32`. -/
theorem C9_positions_non_decreasing (T : UnicodeTables) (input : List Char)
    (hlen : (input.length : Int) < MaxInt32) (k : Nat) (l : Lexer) (t1 t2 : Lexeme)
    (l1 l2 : Lexer) (hk : Lexer.after T k (NewLexer (runes input)) = Except.ok l)
    (h1 : l.Lex T = Except.ok (t1, l1)) (h2 : l1.Lex T = Except.ok (t2, l2)) :
    (t1.pos.line ≤ t2.pos.line ∧
      (t1.pos.line = t2.pos.line →
        t1.pos.column ≤ t2.pos.column ∧
          (t2.tok ≠ Token.EOF → t1.pos.column < t2.pos.column))) ∧
    (1 ≤ t1.pos.line ∧ t2.pos.line ≤ MaxInt32 ∧ 0 ≤ t1.pos.column ∧
      t1.pos.column ≤ MaxInt32 ∧ 0 ≤ t2.pos.column ∧ t2.pos.column ≤ MaxInt32) := by
  constructor
  swap
  · obtain ⟨a1, a2, a3, a4⟩ := token_range T input k l t1 l1 hk h1
    obtain ⟨b1, b2, b3, b4⟩ := token_range T input (k + 1) l1 t2 l2
      (after_snoc T k _ l t1 l1 hk h1) h2
    refine ⟨a1, ?_, a3, ?_, b3, ?_⟩ <;> omega
  obtain ⟨ws1, -, -, a3, a4, a5, -⟩ := Lex_sound T l t1 l1 h1
  obtain ⟨ws2, -, -, b3, -, -, b6⟩ := Lex_sound T l1 t2 l2 h2
  have hsplit : ws1 ++ t1.lit.data = (ws1 ++ t1.lit.data.take 1) ++ t1.lit.data.drop 1 := by
    rw [List.append_assoc, List.take_append_drop]
  have hl1 : l1.pos = ⟨t1.pos.line, t1.pos.column + (t1.lit.data.drop 1).length⟩ := by
    rw [a4, hsplit, advance_append, ← a3]
    exact advance_plain _ _ fun c hc => a5 c (List.mem_of_mem_drop hc)
  obtain ⟨m1, m2⟩ := advance_line_le (ws2 ++ t2.lit.data.take 1) l1.pos
  rw [← b3] at m1 m2
  rw [hl1] at m1 m2
  simp only at m1 m2
  refine ⟨m1, fun he => ?_⟩
  have hc := m2 he.symm
  constructor
  · rw [hc]
    have : (0 : Int) ≤ ((t1.lit.data.drop 1).length : Int) := Int.natCast_nonneg _
    have : (0 : Int) ≤ ((ws2 ++ t2.lit.data.take 1).length : Int) := Int.natCast_nonneg _
    omega
  · intro hne
    have hlit := Shape_nonempty T t2 l2 b6 hne
    have hpos : 0 < (ws2 ++ t2.lit.data.take 1).length := by
      cases hd : t2.lit.data with
      | nil => exact absurd hd hlit
      | cons c cs => simp
    rw [hc]
    have : (0 : Int) ≤ ((t1.lit.data.drop 1).length : Int) := Int.natCast_nonneg _
    omega

theorem C9_positions_non_decreasing_witness :
    ((Lexeme.mk ⟨1, 1⟩ Token.INT "12").pos.line ≤ (Lexeme.mk ⟨1, 4⟩ Token.ADD "+").pos.line ∧
      ((Lexeme.mk ⟨1, 1⟩ Token.INT "12").pos.line = (Lexeme.mk ⟨1, 4⟩ Token.ADD "+").pos.line →
        (Lexeme.mk ⟨1, 1⟩ Token.INT "12").pos.column
            ≤ (Lexeme.mk ⟨1, 4⟩ Token.ADD "+").pos.column ∧
          ((Lexeme.mk ⟨1, 4⟩ Token.ADD "+").tok ≠ Token.EOF →
            (Lexeme.mk ⟨1, 1⟩ Token.INT "12").pos.column
              < (Lexeme.mk ⟨1, 4⟩ Token.ADD "+").pos.column))) ∧
    (1 ≤ (Lexeme.mk ⟨1, 1⟩ Token.INT "12").pos.line ∧
      (Lexeme.mk ⟨1, 4⟩ Token.ADD "+").pos.line ≤ MaxInt32 ∧
      0 ≤ (Lexeme.mk ⟨1, 1⟩ Token.INT "12").pos.column ∧
      (Lexeme.mk ⟨1, 1⟩ Token.INT "12").pos.column ≤ MaxInt32 ∧
      0 ≤ (Lexeme.mk ⟨1, 4⟩ Token.ADD "+").pos.column ∧
      (Lexeme.mk ⟨1, 4⟩ Token.ADD "+").pos.column ≤ MaxInt32) :=
  C9_positions_non_decreasing UnicodeTables.latin1 ['1', '2', ' ', '+'] (by decide) 0
    (NewLexer (runes ['1', '2', ' ', '+']))
    ⟨⟨1, 1⟩, Token.INT, "12"⟩ ⟨⟨1, 4⟩, Token.ADD, "+"⟩
    ⟨⟨1, 2⟩, ⟨runes [' ', '+'], none⟩⟩ ⟨⟨1, 4⟩, ⟨[], some '+'⟩⟩ rfl rfl rfl

/-- C10: every token that `Lex` returns with kind `IDENT` has a text of length at least 1
made only of alphabetic characters (none is an underscore, and none is a digit when the
classifier tables keep the classes apart), and every token that `Lex` returns with kind
`INT` has a text of length at least 1 made only of decimal digits. -/
theorem C10_ident_and_int_texts (T : UnicodeTables) (l : Lexer) (t : Lexeme) (l1 : Lexer)
    (h : l.Lex T = Except.ok (t, l1)) :
    (t.tok = Token.IDENT →
      1 ≤ t.lit.data.length ∧
        ∀ c ∈ t.lit.data, unicode.IsLetter T c = true ∧ c ≠ '_' ∧
          (T.Separated → unicode.IsDigit T c = false)) ∧
    (t.tok = Token.INT →
      1 ≤ t.lit.data.length ∧ ∀ c ∈ t.lit.data, unicode.IsDigit T c = true) := by
  obtain ⟨ws, -, -, -, -, -, h6⟩ := Lex_sound T l t l1 h
  constructor
  · intro ht
    simp only [Shape, ht] at h6
    refine ⟨List.length_pos.2 h6.1, fun c hc => ⟨h6.2.1 c hc, ?_, fun hT =>
      letter_not_digit T hT (h6.2.1 c hc)⟩⟩
    intro e
    subst e
    exact Bool.false_ne_true (h6.2.1 _ hc)
  · intro ht
    simp only [Shape, ht] at h6
    exact ⟨List.length_pos.2 h6.1, h6.2.1⟩

theorem C10_ident_and_int_texts_witness :
    ((Lexeme.mk ⟨1, 2⟩ Token.IDENT "ab").tok = Token.IDENT →
      1 ≤ (Lexeme.mk ⟨1, 2⟩ Token.IDENT "ab").lit.data.length ∧
        ∀ c ∈ (Lexeme.mk ⟨1, 2⟩ Token.IDENT "ab").lit.data,
          unicode.IsLetter UnicodeTables.latin1 c = true ∧ c ≠ '_' ∧
            (UnicodeTables.latin1.Separated →
              unicode.IsDigit UnicodeTables.latin1 c = false)) ∧
    ((Lexeme.mk ⟨1, 2⟩ Token.IDENT "ab").tok = Token.INT →
      1 ≤ (Lexeme.mk ⟨1, 2⟩ Token.IDENT "ab").lit.data.length ∧
        ∀ c ∈ (Lexeme.mk ⟨1, 2⟩ Token.IDENT "ab").lit.data,
          unicode.IsDigit UnicodeTables.latin1 c = true) :=
  C10_ident_and_int_texts UnicodeTables.latin1 (NewLexer (runes [' ', 'a', 'b', '_', '1']))
    ⟨⟨1, 2⟩, Token.IDENT, "ab"⟩ ⟨⟨1, 3⟩, ⟨runes ['_', '1'], none⟩⟩ rfl

/-- C11: on a lexer whose unread input is `cs`, `Lex` returns `EOF` exactly when every
character of `cs` is whitespace or a newline (in particular when `cs` is empty); the
`EOF` token then has an empty text and its position is the position of the lexer after
consuming `cs`, with nothing left unread.  On the empty input the tokens are `EOF`
only. -/
theorem C11_eof_iff_only_blanks (T : UnicodeTables) (l : Lexer) (cs : List Char)
    (hsrc : l.reader.src = runes cs) :
    ((∃ t l1, l.Lex T = Except.ok (t, l1) ∧ t.tok = Token.EOF) ↔
      ∀ c ∈ cs, unicode.IsSpace T c = true ∨ c = '\n') ∧
    (∀ t l1, l.Lex T = Except.ok (t, l1) → t.tok = Token.EOF →
      t.lit = "" ∧ t.pos = advance l.pos cs ∧ l1.pos = advance l.pos cs ∧
        l1.reader.src = []) ∧
    (Lexer.lexAll T (NewLexer (runes []))).map kinds = Except.ok [(Token.EOF, "")] := by
  have hfwd : ∀ t l1, l.Lex T = Except.ok (t, l1) → t.tok = Token.EOF →
      ∀ c ∈ cs, unicode.IsSpace T c = true ∨ c = '\n' := by
    intro t l1 h he
    obtain ⟨ws, h1, h2, -, -, -, h6⟩ := Lex_sound T l t l1 h
    simp only [Shape, he] at h6
    rw [hsrc, h6.2, h6.1] at h2
    have e : cs = ws := runes_inj _ _ (by simpa using h2)
    rw [e]
    exact fun c hc => (h1 c hc).symm
  refine ⟨⟨?_, ?_⟩, ?_, rfl⟩
  · rintro ⟨t, l1, h, he⟩
    exact hfwd t l1 h he
  · intro hcs
    exact ⟨_, _, Lex_blank T l cs hcs hsrc, rfl⟩
  · intro t l1 h he
    rw [Lex_blank T l cs (hfwd t l1 h he) hsrc] at h
    simp only [Except.ok.injEq, Prod.mk.injEq] at h
    obtain ⟨rfl, rfl⟩ := h
    exact ⟨rfl, rfl, rfl, rfl⟩

theorem C11_eof_iff_only_blanks_witness :
    ((∃ t l1, (NewLexer (runes [' ', '\n', '\t'])).Lex UnicodeTables.latin1
        = Except.ok (t, l1) ∧ t.tok = Token.EOF) ↔
      ∀ c ∈ [' ', '\n', '\t'], unicode.IsSpace UnicodeTables.latin1 c = true ∨ c = '\n') ∧
    (∀ t l1, (NewLexer (runes [' ', '\n', '\t'])).Lex UnicodeTables.latin1
        = Except.ok (t, l1) → t.tok = Token.EOF →
      t.lit = "" ∧ t.pos = advance (NewLexer (runes [' ', '\n', '\t'])).pos [' ', '\n', '\t'] ∧
        l1.pos = advance (NewLexer (runes [' ', '\n', '\t'])).pos [' ', '\n', '\t'] ∧
        l1.reader.src = []) ∧
    (Lexer.lexAll UnicodeTables.latin1 (NewLexer (runes []))).map kinds
      = Except.ok [(Token.EOF, "")] :=
  C11_eof_iff_only_blanks UnicodeTables.latin1 (NewLexer (runes [' ', '\n', '\t']))
    [' ', '\n', '\t'] rfl

/-- C12: when the first character of the unread input that is neither whitespace nor a
newline is one of `;`, `+`, `-`, `*`, `/`, `=`, `Lex` returns the kind `SEMI`, `ADD`,
`SUB`, `MUL`, `DIV`, `ASSIGN` respectively, with that one character as text and the
position of the lexer just after consuming that character, and leaves unread exactly what
follows it; `==` yields two `ASSIGN` tokens. -/
theorem C12_operator_tokens (T : UnicodeTables) (l : Lexer) (ws : List Char) (c : Char)
    (rest : List Char)
    (hws : ∀ w ∈ ws, unicode.IsSpace T w = true ∨ w = '\n') (hc : isOp c = true)
    (hsrc : l.reader.src = runes (ws ++ c :: rest)) :
    (∃ l1, l.Lex T = Except.ok (⟨l1.pos, opToken c, String.singleton c⟩, l1) ∧
      l1.pos = advance l.pos (ws ++ [c]) ∧ l1.reader.src = runes rest) ∧
    (opToken ';' = Token.SEMI ∧ opToken '+' = Token.ADD ∧ opToken '-' = Token.SUB ∧
      opToken '*' = Token.MUL ∧ opToken '/' = Token.DIV ∧ opToken '=' = Token.ASSIGN) ∧
    (Lexer.lexAll T (NewLexer (runes ['=', '=']))).map kinds
      = Except.ok [(Token.ASSIGN, "="), (Token.ASSIGN, "="), (Token.EOF, "")] := by
  refine ⟨⟨⟨advance l.pos (ws ++ [c]), ⟨runes rest, some c⟩⟩,
    Lex_op T l ws c (runes rest) hws hc (by rw [hsrc]; simp [runes]), rfl, rfl⟩,
    ⟨rfl, rfl, rfl, rfl, rfl, rfl⟩, rfl⟩

theorem C12_operator_tokens_witness :
    (∃ l1, (NewLexer (runes [' ', '\n', '*', '7'])).Lex UnicodeTables.latin1
        = Except.ok (⟨l1.pos, opToken '*', String.singleton '*'⟩, l1) ∧
      l1.pos = advance (NewLexer (runes [' ', '\n', '*', '7'])).pos ([' ', '\n'] ++ ['*']) ∧
      l1.reader.src = runes ['7']) ∧
    (opToken ';' = Token.SEMI ∧ opToken '+' = Token.ADD ∧ opToken '-' = Token.SUB ∧
      opToken '*' = Token.MUL ∧ opToken '/' = Token.DIV ∧ opToken '=' = Token.ASSIGN) ∧
    (Lexer.lexAll UnicodeTables.latin1 (NewLexer (runes ['=', '=']))).map kinds
      = Except.ok [(Token.ASSIGN, "="), (Token.ASSIGN, "="), (Token.EOF, "")] :=
  C12_operator_tokens UnicodeTables.latin1 (NewLexer (runes [' ', '\n', '*', '7']))
    [' ', '\n'] '*' ['7'] (by decide) rfl rfl

/-- C13: from a fresh lexer on the input `foo = 1 + 23;`, successive `Lex` calls return
exactly the kinds and texts `IDENT foo`, `ASSIGN =`, `INT 1`, `ADD +`, `INT 23`, `SEMI ;`,
`EOF` with empty text, in that order. -/
theorem C13_example_statement (T : UnicodeTables) :
    (Lexer.lexAll T (NewLexer (runes
        ['f', 'o', 'o', ' ', '=', ' ', '1', ' ', '+', ' ', '2', '3', ';']))).map kinds
      = Except.ok [(Token.IDENT, "foo"), (Token.ASSIGN, "="), (Token.INT, "1"),
          (Token.ADD, "+"), (Token.INT, "23"), (Token.SEMI, ";"), (Token.EOF, "")] := by
  rfl

/-- C14 as stated fails: on `1` followed by a newline, `lexInt` reads the newline and
its `backup` un-consumes it, and so does `lexIdent` on `a` followed by a newline. -/
theorem C14_newline_is_pushed_back :
    (NewLexer (runes ['1', '\n'])).LexLog UnicodeTables.latin1
      = Except.ok ((⟨⟨1, 1⟩, Token.INT, "1"⟩, ⟨⟨1, 1⟩, ⟨runes ['\n'], none⟩⟩),
          [(Site.Lex, '1'), (Site.lexInt, '\n')]) ∧
    (NewLexer (runes ['a', '\n'])).LexLog UnicodeTables.latin1
      = Except.ok ((⟨⟨1, 1⟩, Token.IDENT, "a"⟩, ⟨⟨1, 1⟩, ⟨runes ['\n'], none⟩⟩),
          [(Site.Lex, 'a'), (Site.lexIdent, '\n')]) :=
  ⟨rfl, rfl⟩

/-- C14, amended: in a `Lex` call that returns a token, the `backup` of `Lex` itself
never un-consumes a newline (it un-consumes the digit or letter that starts the literal);
the `backup` of `lexInt` or `lexIdent` un-consumes the character that ends the run, which
is then the first unread character, and it is a newline whenever a newline directly
follows the run; the lexer stays on the line of the token, so that the newline is
dispatched by the next call. -/
theorem C14_pushbacks_of_a_call (T : UnicodeTables) (l : Lexer) (t : Lexeme) (l1 : Lexer)
    (h : l.Lex T = Except.ok (t, l1)) :
    ∃ log, l.LexLog T = Except.ok ((t, l1), log) ∧
      (∀ c, (Site.Lex, c) ∈ log →
        c ≠ '\n' ∧ (unicode.IsDigit T c = true ∨ unicode.IsLetter T c = true)) ∧
      (∀ s c, (s, c) ∈ log → s ≠ Site.Lex →
        l1.reader.src.head? = some (Item.rune c)) ∧
      (t.tok = Token.INT → l1.reader.src.head? = some (Item.rune '\n') →
        (Site.lexInt, '\n') ∈ log) ∧
      (t.tok = Token.IDENT → l1.reader.src.head? = some (Item.rune '\n') →
        (Site.lexIdent, '\n') ∈ log) ∧
      l1.pos.line = t.pos.line := by
  obtain ⟨ws, -, -, -, -, -, h6⟩ := Lex_sound T l t l1 h
  refine ⟨pushbacks t l1, LexLog_of_Lex T l t l1 h, ?_, ?_, ?_, ?_, ?_⟩
  · intro c hc
    unfold pushbacks at hc
    split at hc
    · next ht hd =>
      simp only [List.mem_cons, Prod.mk.injEq, true_and, tailLog_mem] at hc
      rcases hc with rfl | ⟨hc, -⟩
      · simp only [Shape, ht] at h6
        have hdig := h6.2.1 c (List.mem_of_mem_head? hd)
        exact ⟨(IsDigit_plain T hdig).1, Or.inl hdig⟩
      · cases hc
    · next ht hd =>
      simp only [List.mem_cons, Prod.mk.injEq, true_and, tailLog_mem] at hc
      rcases hc with rfl | ⟨hc, -⟩
      · simp only [Shape, ht] at h6
        have hlet := h6.2.1 c (List.mem_of_mem_head? hd)
        exact ⟨(IsLetter_plain T hlet).1, Or.inr hlet⟩
      · cases hc
    · simp at hc
  · intro s c hc hs
    unfold pushbacks at hc
    split at hc
    · simp only [List.mem_cons, Prod.mk.injEq, tailLog_mem] at hc
      rcases hc with ⟨rfl, -⟩ | ⟨-, hc⟩
      · exact absurd rfl hs
      · exact hc
    · simp only [List.mem_cons, Prod.mk.injEq, tailLog_mem] at hc
      rcases hc with ⟨rfl, -⟩ | ⟨-, hc⟩
      · exact absurd rfl hs
      · exact hc
    · simp at hc
  · intro ht hn
    simp only [Shape, ht] at h6
    cases hd : t.lit.data with
    | nil => exact absurd hd h6.1
    | cons d ds =>
      simp [pushbacks, ht, hd, tailLog_mem, hn]
  · intro ht hn
    simp only [Shape, ht] at h6
    cases hd : t.lit.data with
    | nil => exact absurd hd h6.1
    | cons d ds =>
      simp [pushbacks, ht, hd, tailLog_mem, hn]
  · rw [Lex_same_line T l t l1 h]

theorem C14_pushbacks_of_a_call_witness :
    ∃ log, (NewLexer (runes ['4', '2', '\n', 'x'])).LexLog UnicodeTables.latin1
        = Except.ok ((Lexeme.mk ⟨1, 1⟩ Token.INT "42",
            Lexer.mk ⟨1, 2⟩ ⟨runes ['\n', 'x'], none⟩), log) ∧
      (∀ c, (Site.Lex, c) ∈ log →
        c ≠ '\n' ∧ (unicode.IsDigit UnicodeTables.latin1 c = true ∨
          unicode.IsLetter UnicodeTables.latin1 c = true)) ∧
      (∀ s c, (s, c) ∈ log → s ≠ Site.Lex →
        (Lexer.mk ⟨1, 2⟩ ⟨runes ['\n', 'x'], none⟩).reader.src.head? = some (Item.rune c)) ∧
      ((Lexeme.mk ⟨1, 1⟩ Token.INT "42").tok = Token.INT →
        (Lexer.mk ⟨1, 2⟩ ⟨runes ['\n', 'x'], none⟩).reader.src.head?
          = some (Item.rune '\n') →
        (Site.lexInt, '\n') ∈ log) ∧
      ((Lexeme.mk ⟨1, 1⟩ Token.INT "42").tok = Token.IDENT →
        (Lexer.mk ⟨1, 2⟩ ⟨runes ['\n', 'x'], none⟩).reader.src.head?
          = some (Item.rune '\n') →
        (Site.lexIdent, '\n') ∈ log) ∧
      (Lexer.mk ⟨1, 2⟩ ⟨runes ['\n', 'x'], none⟩).pos.line
        = (Lexeme.mk ⟨1, 1⟩ Token.INT "42").pos.line :=
  C14_pushbacks_of_a_call UnicodeTables.latin1 (NewLexer (runes ['4', '2', '\n', 'x']))
    ⟨⟨1, 1⟩, Token.INT, "42"⟩ ⟨⟨1, 2⟩, ⟨runes ['\n', 'x'], none⟩⟩ rfl

/-- C15 as stated fails: the newline satisfies two categories, line terminator and
whitespace of the classifier, and making the whitespace test before the newline test
changes what `Lex` returns: on a newline followed by `a` the identifier is then reported
on line 1 column 2 instead of line 2 column 1. -/
theorem C15_newline_in_two_categories :
    (Category.terminator.test UnicodeTables.latin1 '\n' = true ∧
      Category.space.test UnicodeTables.latin1 '\n' = true) ∧
    Lexer.LexBy UnicodeTables.latin1
        [Category.space, Category.terminator, Category.operator, Category.digit,
          Category.letter] (NewLexer (runes ['\n', 'a']))
      = Except.ok (⟨⟨1, 2⟩, Token.IDENT, "a"⟩, ⟨⟨1, 2⟩, ⟨[], none⟩⟩) ∧
    (NewLexer (runes ['\n', 'a'])).Lex UnicodeTables.latin1
      = Except.ok (⟨⟨2, 1⟩, Token.IDENT, "a"⟩, ⟨⟨2, 1⟩, ⟨[], none⟩⟩) :=
  ⟨⟨rfl, rfl⟩, rfl, rfl⟩

/-- C15, amended: when the classifier tables keep the classes apart, the only character
that satisfies two of the five categories is the newline, which is both the line
terminator and whitespace; so making the five tests of `Lex` in another order changes
neither the token `Lex` returns nor the resulting lexer state, for any input, as long as
the newline test stays before the whitespace test. -/
theorem C15_categories_and_order (T : UnicodeTables) (hT : T.Separated)
    (order : List Category) (hperm : order.Perm sourceOrder)
    (hlt : order.indexOf Category.terminator < order.indexOf Category.space) (l : Lexer) :
    (∀ (c : Char) (k1 k2 : Category), k1 ≠ k2 → k1.test T c = true → k2.test T c = true →
      c = '\n' ∧ ((k1 = Category.terminator ∧ k2 = Category.space) ∨
        (k1 = Category.space ∧ k2 = Category.terminator))) ∧
    Lexer.LexBy T sourceOrder l = l.Lex T ∧
    Lexer.LexBy T order l = l.Lex T := by
  refine ⟨fun c k1 k2 hne h1 h2 => Category.test_two T hT c k1 k2 hne h1 h2,
    LexLoopBy_source T _ l, ?_⟩
  have hall : ∀ k : Category, k ∈ order := fun k =>
    (hperm.mem_iff).2 (Category.mem_sourceOrder k)
  unfold Lexer.LexBy Lexer.Lex
  rw [LexLoopBy_congr T order sourceOrder (classify_order T hT order hall hlt),
    LexLoopBy_source]

theorem C15_categories_and_order_witness :
    (∀ (c : Char) (k1 k2 : Category), k1 ≠ k2 →
      k1.test UnicodeTables.latin1 c = true → k2.test UnicodeTables.latin1 c = true →
      c = '\n' ∧ ((k1 = Category.terminator ∧ k2 = Category.space) ∨
        (k1 = Category.space ∧ k2 = Category.terminator))) ∧
    Lexer.LexBy UnicodeTables.latin1 sourceOrder (NewLexer (runes [' ', '\n', 'a', '1']))
      = (NewLexer (runes [' ', '\n', 'a', '1'])).Lex UnicodeTables.latin1 ∧
    Lexer.LexBy UnicodeTables.latin1
        [Category.letter, Category.digit, Category.terminator, Category.operator,
          Category.space] (NewLexer (runes [' ', '\n', 'a', '1']))
      = (NewLexer (runes [' ', '\n', 'a', '1'])).Lex UnicodeTables.latin1 :=
  C15_categories_and_order UnicodeTables.latin1 Separated_latin1
    [Category.letter, Category.digit, Category.terminator, Category.operator,
      Category.space] (by decide) (by decide) (NewLexer (runes [' ', '\n', 'a', '1']))

/-- C16: in every lexer state reached from `NewLexer` by any number `k` of `Lex` calls
on any input shorter than `MaxInt32` runes, and in every position that `Lex` returns from
such a state, the line is at least 1 and the column at least 0, and neither exceeds
`MaxInt32`, so that no counter leaves the range of Go's `int`; every returned token other
than `EOF` has a column of at least 1. -/
theorem C16_position_bounds (T : UnicodeTables) (input : List Char)
    (hlen : (input.length : Int) < MaxInt32) (k : Nat) (l : Lexer)
    (hk : Lexer.after T k (NewLexer (runes input)) = Except.ok l) :
    (1 ≤ l.pos.line ∧ l.pos.line ≤ MaxInt32 ∧ 0 ≤ l.pos.column ∧ l.pos.column ≤ MaxInt32) ∧
    ∀ t l1, l.Lex T = Except.ok (t, l1) →
      1 ≤ t.pos.line ∧ t.pos.line ≤ MaxInt32 ∧ 0 ≤ t.pos.column ∧
        t.pos.column ≤ MaxInt32 ∧ (t.tok ≠ Token.EOF → 1 ≤ t.pos.column) := by
  obtain ⟨r1, r2, r3, r4⟩ := after_range T input k l hk
  have hsrc : (0 : Int) ≤ (l.reader.src.length : Int) := Int.natCast_nonneg _
  refine ⟨⟨r1, by omega, r2, by omega⟩, ?_⟩
  intro t l1 ht
  obtain ⟨a1, a2, a3, a4⟩ := token_range T input k l t l1 hk ht
  obtain ⟨ws, -, -, h3, -, h5, h6⟩ := Lex_sound T l t l1 ht
  refine ⟨a1, by omega, a3, by omega, ?_⟩
  intro hne
  have hlit := Shape_nonempty T t l1 h6 hne
  cases hd : t.lit.data with
  | nil => exact absurd hd hlit
  | cons c cs =>
    have hc : c ≠ '\n' := h5 c (by simp [hd])
    have hw := advance_bounds ws l.pos r1 r2
    rw [h3, hd, advance_append]
    simp only [List.take_succ_cons, List.take_zero, advance, if_neg hc]
    omega

theorem C16_position_bounds_witness :
    (1 ≤ (Lexer.mk ⟨1, 1⟩ ⟨runes ['\n', 'x'], some ';'⟩).pos.line ∧
      (Lexer.mk ⟨1, 1⟩ ⟨runes ['\n', 'x'], some ';'⟩).pos.line ≤ MaxInt32 ∧
      0 ≤ (Lexer.mk ⟨1, 1⟩ ⟨runes ['\n', 'x'], some ';'⟩).pos.column ∧
      (Lexer.mk ⟨1, 1⟩ ⟨runes ['\n', 'x'], some ';'⟩).pos.column ≤ MaxInt32) ∧
    ∀ t l1, (Lexer.mk ⟨1, 1⟩ ⟨runes ['\n', 'x'], some ';'⟩).Lex UnicodeTables.latin1
        = Except.ok (t, l1) →
      1 ≤ t.pos.line ∧ t.pos.line ≤ MaxInt32 ∧ 0 ≤ t.pos.column ∧
        t.pos.column ≤ MaxInt32 ∧ (t.tok ≠ Token.EOF → 1 ≤ t.pos.column) :=
  C16_position_bounds UnicodeTables.latin1 [';', '\n', 'x'] (by decide) 1
    ⟨⟨1, 1⟩, ⟨runes ['\n', 'x'], some ';'⟩⟩ rfl

/-- C17: when a read of the source fails with an error other than end-of-input during a
`Lex` call, the call panics and returns no token, whatever follows the failed read:
in the main loop (after whitespace and newlines) with the error of the source, in
`lexInt` and in `lexIdent` (in the middle of a literal) through the `backup` that follows
the failed read.  A call that returns a token has consumed runes only. -/
theorem C17_failed_read_panics (T : UnicodeTables) (l : Lexer) (ws : List Char)
    (rest : List Item) (hws : ∀ w ∈ ws, unicode.IsSpace T w = true ∨ w = '\n') :
    (l.reader.src = runes ws ++ Item.fault :: rest →
      l.Lex T = Except.error (Abort.panic Error.fault)) ∧
    (∀ d ds, unicode.IsSpace T d = false → (∀ c ∈ d :: ds, unicode.IsDigit T c = true) →
      l.reader.src = runes (ws ++ d :: ds) ++ Item.fault :: rest →
      l.Lex T = Except.error (Abort.panic Error.ErrInvalidUnreadRune)) ∧
    (∀ d ds, unicode.IsSpace T d = false → unicode.IsDigit T d = false →
      (∀ c ∈ d :: ds, unicode.IsLetter T c = true) →
      l.reader.src = runes (ws ++ d :: ds) ++ Item.fault :: rest →
      l.Lex T = Except.error (Abort.panic Error.ErrInvalidUnreadRune)) ∧
    (∀ t l1, l.Lex T = Except.ok (t, l1) →
      ∃ cs, l.reader.src = runes cs ++ l1.reader.src) ∧
    ((NewLexer [Item.rune ' ', Item.fault, Item.rune '7']).Lex T
        = Except.error (Abort.panic Error.fault) ∧
      (NewLexer [Item.rune '1', Item.rune '2', Item.fault, Item.rune '7']).Lex T
        = Except.error (Abort.panic Error.ErrInvalidUnreadRune) ∧
      (NewLexer [Item.rune 'a', Item.fault, Item.rune '7']).Lex T
        = Except.error (Abort.panic Error.ErrInvalidUnreadRune)) :=
  ⟨fun h => Lex_fault_blank T l ws rest hws h,
    fun d ds hs hds h => Lex_fault_digits T l ws d ds rest hws hs hds h,
    fun d ds hs hd hds h => Lex_fault_letters T l ws d ds rest hws hs hd hds h,
    fun t l1 h => by
      obtain ⟨ws1, -, h2, -⟩ := Lex_sound T l t l1 h
      exact ⟨_, h2⟩,
    rfl, rfl, rfl⟩

theorem C17_failed_read_panics_witness :
    ((NewLexer (runes [' '] ++ Item.fault :: [Item.rune 'x'])).reader.src
        = runes [' '] ++ Item.fault :: [Item.rune 'x'] →
      (NewLexer (runes [' '] ++ Item.fault :: [Item.rune 'x'])).Lex UnicodeTables.latin1
        = Except.error (Abort.panic Error.fault)) ∧
    (∀ d ds, unicode.IsSpace UnicodeTables.latin1 d = false →
      (∀ c ∈ d :: ds, unicode.IsDigit UnicodeTables.latin1 c = true) →
      (NewLexer (runes [' '] ++ Item.fault :: [Item.rune 'x'])).reader.src
        = runes ([' '] ++ d :: ds) ++ Item.fault :: [Item.rune 'x'] →
      (NewLexer (runes [' '] ++ Item.fault :: [Item.rune 'x'])).Lex UnicodeTables.latin1
        = Except.error (Abort.panic Error.ErrInvalidUnreadRune)) ∧
    (∀ d ds, unicode.IsSpace UnicodeTables.latin1 d = false →
      unicode.IsDigit UnicodeTables.latin1 d = false →
      (∀ c ∈ d :: ds, unicode.IsLetter UnicodeTables.latin1 c = true) →
      (NewLexer (runes [' '] ++ Item.fault :: [Item.rune 'x'])).reader.src
        = runes ([' '] ++ d :: ds) ++ Item.fault :: [Item.rune 'x'] →
      (NewLexer (runes [' '] ++ Item.fault :: [Item.rune 'x'])).Lex UnicodeTables.latin1
        = Except.error (Abort.panic Error.ErrInvalidUnreadRune)) ∧
    (∀ t l1, (NewLexer (runes [' '] ++ Item.fault :: [Item.rune 'x'])).Lex UnicodeTables.latin1
        = Except.ok (t, l1) →
      ∃ cs, (NewLexer (runes [' '] ++ Item.fault :: [Item.rune 'x'])).reader.src
        = runes cs ++ l1.reader.src) ∧
    ((NewLexer [Item.rune ' ', Item.fault, Item.rune '7']).Lex UnicodeTables.latin1
        = Except.error (Abort.panic Error.fault) ∧
      (NewLexer [Item.rune '1', Item.rune '2', Item.fault, Item.rune '7']).Lex
          UnicodeTables.latin1
        = Except.error (Abort.panic Error.ErrInvalidUnreadRune) ∧
      (NewLexer [Item.rune 'a', Item.fault, Item.rune '7']).Lex UnicodeTables.latin1
        = Except.error (Abort.panic Error.ErrInvalidUnreadRune)) :=
  C17_failed_read_panics UnicodeTables.latin1
    (NewLexer (runes [' '] ++ Item.fault :: [Item.rune 'x'])) [' '] [Item.rune 'x']
    (by decide)

/-- C18: for every input, repeated `Lex` calls up to the first `EOF` succeed and the
concatenation of the texts of the tokens they return is the input with every whitespace
character and every newline removed.  The classifier tables above Latin-1 are assumed to
keep the classes apart. -/
theorem C18_all_texts_concat (T : UnicodeTables) (hT : T.Separated) (input : List Char) :
    ∃ ts, Lexer.lexAll T (NewLexer (runes input)) = Except.ok ts ∧
      String.join (ts.map Lexeme.lit)
        = ⟨input.filter fun c => !(unicode.IsSpace T c || decide (c = '\n'))⟩ := by
  obtain ⟨ts, g1, -, g3, g4⟩ := scan_spec T (input.length + 1) (NewLexer (runes input)) input
    rfl (Nat.lt_succ_self _)
  have g1 : Lexer.lexAll T (NewLexer (runes input)) = Except.ok ts := by
    rw [← g1]; simp [Lexer.lexAll, NewLexer, runes]
  refine ⟨ts, g1, ?_⟩
  apply String.ext
  rw [String.data_join, List.map_map]
  have e : (fun c => !(unicode.IsSpace T c || decide (c = '\n'))) = fun c => !isBlank T c := by
    funext c; rfl
  show _ = input.filter _
  rw [e, g3]
  congr 1
  apply List.map_congr_left
  intro t ht
  obtain ⟨⟨l1, hs⟩, -⟩ := g4 t ht
  exact (Shape_keep T hT t l1 hs).symm

theorem C18_all_texts_concat_witness :
    ∃ ts, Lexer.lexAll UnicodeTables.latin1 (NewLexer (runes ['a', '1', ' ', '#', '\n', '2', 'b']))
        = Except.ok ts ∧
      String.join (ts.map Lexeme.lit)
        = ⟨['a', '1', ' ', '#', '\n', '2', 'b'].filter fun c =>
            !(unicode.IsSpace UnicodeTables.latin1 c || decide (c = '\n'))⟩ :=
  C18_all_texts_concat UnicodeTables.latin1 Separated_latin1
    ['a', '1', ' ', '#', '\n', '2', 'b']

/-- C19: on a finite input every call of `Lex`, of `lexInt` and of `lexIdent` returns (the
fuel of the loops, one more than the number of unread characters, is never exhausted); a
`Lex` call that returns a token other than `EOF` leaves strictly fewer unread characters
than it started with; and repeated `Lex` calls reach `EOF` after at most as many non-`EOF`
tokens as there are unread characters. -/
theorem C19_termination (T : UnicodeTables) (l : Lexer) (input : List Char)
    (hsrc : l.reader.src = runes input) :
    (∃ t l1, l.Lex T = Except.ok (t, l1) ∧
      (t.tok ≠ Token.EOF → l1.reader.src.length < l.reader.src.length)) ∧
    (∃ out, l.lexInt T = Except.ok out) ∧ (∃ out, l.lexIdent T = Except.ok out) ∧
    ∃ init last, Lexer.lexAll T l = Except.ok (init ++ [last]) ∧ last.tok = Token.EOF ∧
      (∀ t ∈ init, t.tok ≠ Token.EOF) ∧ init.length ≤ input.length := by
  have hnf : ∀ i ∈ l.reader.src, i ≠ Item.fault := by rw [hsrc]; exact runes_no_fault input
  refine ⟨?_, ?_, ?_, ?_⟩
  · obtain ⟨⟨t, l1⟩, hl⟩ := Lex_total T l hnf
    obtain ⟨ws, -, h2, -, -, -, h6⟩ := Lex_sound T l t l1 hl
    refine ⟨t, l1, hl, fun hne => ?_⟩
    have hlit := List.length_pos.2 (Shape_nonempty T t l1 h6 hne)
    have hlen1 : t.lit.length = t.lit.data.length := rfl
    rw [h2]
    simp [runes]
    omega
  · obtain ⟨pos, ⟨src, last⟩⟩ := l
    obtain ⟨out, h⟩ := classLoop_total (unicode.IsDigit T) src (src.length + 1) "" pos last
      hnf (Nat.lt_succ_self _)
    exact ⟨out, by rw [← h]; simp [Lexer.lexInt, lexIntLoop_eq]⟩
  · obtain ⟨pos, ⟨src, last⟩⟩ := l
    obtain ⟨out, h⟩ := classLoop_total (unicode.IsLetter T) src (src.length + 1) "" pos last
      hnf (Nat.lt_succ_self _)
    exact ⟨out, by rw [← h]; simp [Lexer.lexIdent, lexIdentLoop_eq]⟩
  · obtain ⟨ts, g1, g2, -, -⟩ := scan_spec T (input.length + 1) l input hsrc
      (Nat.lt_succ_self _)
    obtain ⟨init, last, rfl, h1, h2⟩ := scan_ends T _ l ts g1
    refine ⟨init, last, ?_, h1, h2, ?_⟩
    · rw [← g1]; simp [Lexer.lexAll, hsrc, runes]
    · simp at g2; exact g2

theorem C19_termination_witness :
    (∃ t l1, (NewLexer (runes ['1', '2', ' ', 'x'])).Lex UnicodeTables.latin1
        = Except.ok (t, l1) ∧
      (t.tok ≠ Token.EOF →
        l1.reader.src.length < (NewLexer (runes ['1', '2', ' ', 'x'])).reader.src.length)) ∧
    (∃ out, (NewLexer (runes ['1', '2', ' ', 'x'])).lexInt UnicodeTables.latin1
      = Except.ok out) ∧
    (∃ out, (NewLexer (runes ['1', '2', ' ', 'x'])).lexIdent UnicodeTables.latin1
      = Except.ok out) ∧
    ∃ init last, Lexer.lexAll UnicodeTables.latin1 (NewLexer (runes ['1', '2', ' ', 'x']))
        = Except.ok (init ++ [last]) ∧ last.tok = Token.EOF ∧
      (∀ t ∈ init, t.tok ≠ Token.EOF) ∧ init.length ≤ ['1', '2', ' ', 'x'].length :=
  C19_termination UnicodeTables.latin1 (NewLexer (runes ['1', '2', ' ', 'x']))
    ['1', '2', ' ', 'x'] rfl

/-- C20: in `lexInt` and `lexIdent`, reading a character and then calling `backup`
restores the position and the unread input of before the read: the pushed-back character
is the next one to be read, line and column are unchanged (the column decrement undoes
the column increment), and the loop returns in that state when the character is outside
the class.  The restored lexer differs from the one before the read only in that the
reader allows no further `UnreadRune`, which no later call of `Lex`, `lexInt` or
`lexIdent` observes. -/
theorem C20_backup_restores_state (T : UnicodeTables) (l : Lexer) (r : Char)
    (rest : List Item) (hsrc : l.reader.src = Item.rune r :: rest) :
    l.reader.ReadRune = (r, none, ⟨rest, some r⟩) ∧
    Lexer.backup ⟨⟨l.pos.line, l.pos.column + 1⟩, ⟨rest, some r⟩⟩
      = Except.ok ⟨l.pos, ⟨l.reader.src, none⟩⟩ ∧
    (Reader.ReadRune ⟨l.reader.src, none⟩).1 = r ∧
    (unicode.IsDigit T r = false → ∀ n lit,
      Lexer.lexIntLoop T (n + 1) lit l = Except.ok (lit, ⟨l.pos, ⟨l.reader.src, none⟩⟩)) ∧
    (unicode.IsLetter T r = false → ∀ n lit,
      Lexer.lexIdentLoop T (n + 1) lit l = Except.ok (lit, ⟨l.pos, ⟨l.reader.src, none⟩⟩)) ∧
    Lexer.Lex T ⟨l.pos, ⟨l.reader.src, none⟩⟩ = l.Lex T ∧
    Lexer.lexInt T ⟨l.pos, ⟨l.reader.src, none⟩⟩ = l.lexInt T ∧
    Lexer.lexIdent T ⟨l.pos, ⟨l.reader.src, none⟩⟩ = l.lexIdent T := by
  obtain ⟨pos, ⟨src, last⟩⟩ := l
  simp only at hsrc
  subst hsrc
  refine ⟨rfl, ?_, rfl, ?_, ?_, ?_, ?_, ?_⟩
  · simp [Lexer.backup, Reader.UnreadRune]
  · intro h n lit
    rw [lexIntLoop_eq, classLoop_false _ n lit pos r rest last h]
  · intro h n lit
    rw [lexIdentLoop_eq, classLoop_false _ n lit pos r rest last h]
  · exact LexLoop_last T _ pos _ none last
  · simp only [Lexer.lexInt, lexIntLoop_eq]
    exact classLoop_last _ _ _ pos _ none last
  · simp only [Lexer.lexIdent, lexIdentLoop_eq]
    exact classLoop_last _ _ _ pos _ none last

theorem C20_backup_restores_state_witness :
    (Lexer.mk ⟨1, 2⟩ ⟨runes ['+', '3'], some '2'⟩).reader.ReadRune
      = ('+', none, ⟨runes ['3'], some '+'⟩) ∧
    Lexer.backup ⟨⟨(Lexer.mk ⟨1, 2⟩ ⟨runes ['+', '3'], some '2'⟩).pos.line,
        (Lexer.mk ⟨1, 2⟩ ⟨runes ['+', '3'], some '2'⟩).pos.column + 1⟩,
        ⟨runes ['3'], some '+'⟩⟩
      = Except.ok ⟨(Lexer.mk ⟨1, 2⟩ ⟨runes ['+', '3'], some '2'⟩).pos,
          ⟨(Lexer.mk ⟨1, 2⟩ ⟨runes ['+', '3'], some '2'⟩).reader.src, none⟩⟩ ∧
    (Reader.ReadRune ⟨(Lexer.mk ⟨1, 2⟩ ⟨runes ['+', '3'], some '2'⟩).reader.src, none⟩).1
      = '+' ∧
    (unicode.IsDigit UnicodeTables.latin1 '+' = false → ∀ n lit,
      Lexer.lexIntLoop UnicodeTables.latin1 (n + 1) lit
          (Lexer.mk ⟨1, 2⟩ ⟨runes ['+', '3'], some '2'⟩)
        = Except.ok (lit, ⟨(Lexer.mk ⟨1, 2⟩ ⟨runes ['+', '3'], some '2'⟩).pos,
            ⟨(Lexer.mk ⟨1, 2⟩ ⟨runes ['+', '3'], some '2'⟩).reader.src, none⟩⟩)) ∧
    (unicode.IsLetter UnicodeTables.latin1 '+' = false → ∀ n lit,
      Lexer.lexIdentLoop UnicodeTables.latin1 (n + 1) lit
          (Lexer.mk ⟨1, 2⟩ ⟨runes ['+', '3'], some '2'⟩)
        = Except.ok (lit, ⟨(Lexer.mk ⟨1, 2⟩ ⟨runes ['+', '3'], some '2'⟩).pos,
            ⟨(Lexer.mk ⟨1, 2⟩ ⟨runes ['+', '3'], some '2'⟩).reader.src, none⟩⟩)) ∧
    Lexer.Lex UnicodeTables.latin1
        ⟨(Lexer.mk ⟨1, 2⟩ ⟨runes ['+', '3'], some '2'⟩).pos,
          ⟨(Lexer.mk ⟨1, 2⟩ ⟨runes ['+', '3'], some '2'⟩).reader.src, none⟩⟩
      = (Lexer.mk ⟨1, 2⟩ ⟨runes ['+', '3'], some '2'⟩).Lex UnicodeTables.latin1 ∧
    Lexer.lexInt UnicodeTables.latin1
        ⟨(Lexer.mk ⟨1, 2⟩ ⟨runes ['+', '3'], some '2'⟩).pos,
          ⟨(Lexer.mk ⟨1, 2⟩ ⟨runes ['+', '3'], some '2'⟩).reader.src, none⟩⟩
      = (Lexer.mk ⟨1, 2⟩ ⟨runes ['+', '3'], some '2'⟩).lexInt UnicodeTables.latin1 ∧
    Lexer.lexIdent UnicodeTables.latin1
        ⟨(Lexer.mk ⟨1, 2⟩ ⟨runes ['+', '3'], some '2'⟩).pos,
          ⟨(Lexer.mk ⟨1, 2⟩ ⟨runes ['+', '3'], some '2'⟩).reader.src, none⟩⟩
      = (Lexer.mk ⟨1, 2⟩ ⟨runes ['+', '3'], some '2'⟩).lexIdent UnicodeTables.latin1 :=
  C20_backup_restores_state UnicodeTables.latin1
    (Lexer.mk ⟨1, 2⟩ ⟨runes ['+', '3'], some '2'⟩) '+' (runes ['3']) rfl

end GoLexer
